import Mathlib

/-!
Verification of the TDM Service Desk scheduling engine (`engine.py`, `rules.py`).

The Python source is shallowly embedded:
* `datetime.date` values become a `Date` structure; `datetime.time` /
  `datetime.datetime` values inside one scheduled day become rational
  minutes since the midnight of that day (all of the engine's time
  arithmetic is confined to a single day, with overflows past midnight
  represented by minutes ≥ 1440, exactly as ordering of `datetime`
  values would behave);
* floats become `ℚ`;
* the transcendental `haversine_mi` is kept abstract: every definition
  takes the distance function `hav : ℚ × ℚ → ℚ × ℚ → ℚ` as a parameter,
  since none of the verified properties depend on its concrete values;
* mutable locals of `schedule_month` become an explicit `DayState`
  record threaded through the loop functions; the closures
  `place_single` / `place_bundle` (which may mutate only the nonlocal
  `lunch_taken`, resp. `lunch_taken` and `current`) become functions
  from `DayState` to `DayState`;
* Python exceptions that escape `schedule_month` (missing office/tech,
  the `TypeError` raised by `max` over a list containing `None`) become
  `Except String` errors;
* the SQLite store (`models.py`) is an external collaborator: the lists
  of offices, technicians and month jobs are parameters.
-/

namespace TDM

/-! ## Calendar (`rules.py`, `datetime.date`) -/

/-- Gregorian calendar date, mirroring `datetime.date`. -/
structure Date where
  year : Nat
  month : Nat
  day : Nat
deriving DecidableEq, Repr

/-- Gregorian leap-year rule (as implemented by `datetime`). -/
def isLeap (y : Nat) : Bool :=
  y % 4 == 0 && (y % 100 != 0 || y % 400 == 0)

/-- Number of days in a month (as implemented by `datetime`). -/
def daysInMonth (y m : Nat) : Nat :=
  if m == 2 then (if isLeap y then 29 else 28)
  else if m == 4 || m == 6 || m == 9 || m == 11 then 30
  else 31

/-- Days in the months of year `y` strictly before month `m`. -/
def cumDaysBefore (y m : Nat) : Nat :=
  (List.range (m - 1)).foldl (fun acc i => acc + daysInMonth y (i + 1)) 0

/-- Proleptic-Gregorian ordinal of a date (0001-01-01 ↦ 1), the value
`datetime.date.toordinal` returns. -/
def toOrdinal (dt : Date) : Nat :=
  365 * (dt.year - 1) + ((dt.year - 1) / 4 - (dt.year - 1) / 100) + (dt.year - 1) / 400
    + cumDaysBefore dt.year dt.month + dt.day

/-- Day of week, Monday = 0 … Sunday = 6, as `datetime.date.weekday`
(0001-01-01 is a Monday). -/
def weekday (dt : Date) : Nat :=
  (toOrdinal dt - 1) % 7

/-- `rules.is_workday`: Monday–Friday (`WORKDAYS = {0,1,2,3,4}`). -/
def is_workday (dt : Date) : Bool :=
  decide (weekday dt < 5)

/-- `rules.is_in_phase`.  The phase argument is the raw string from the
job record (`None` modelled as `none`). -/
def is_in_phase (dt : Date) (phase : Option String) : Bool :=
  match phase with
  | none => true
  | some p =>
    if p = "" || p = "any" || p = "weekly" then true
    else
      let day := dt.day
      if p = "early" then decide (1 ≤ day ∧ day ≤ 10)
      else if p = "mid" then decide (11 ≤ day ∧ day ≤ 20)
      else if p = "late" then decide (day ≥ 21)
      else true

/-- `rules.is_last_thursday`: the last day of `dt`'s month, walked back
`(weekday(last) - 3) % 7` days (Thursday = 3), compared with `dt`.
The walk stays inside the month (offset ≤ 6 < 28 ≤ last day), so the
subtraction is performed on the day-of-month. -/
def is_last_thursday (dt : Date) : Bool :=
  let ld := daysInMonth dt.year dt.month
  let offset := (weekday ⟨dt.year, dt.month, ld⟩ + 7 - 3) % 7
  dt == ⟨dt.year, dt.month, ld - offset⟩

/-- `engine.month_days`: every calendar day of the month in order. -/
def month_days (yy mm : Nat) : List Date :=
  (List.range (daysInMonth yy mm)).map (fun i => ⟨yy, mm, i + 1⟩)

/-- `engine.first_n_workdays`: the first `n` non-holiday workdays of the
month (the source appends until `len(out) >= n`, i.e. takes the first
`n` qualifying days). -/
def first_n_workdays (yy mm : Nat) (holidays : List Date) (n : Nat) : List Date :=
  (((month_days yy mm).filter (fun d => is_workday d && !(holidays.contains d)))).take n

/-! ## String primitives

The core library's `String.splitOn`/`trim`/`split` use well-founded
recursion on byte positions; they are re-implemented here structurally
over `List Char` (same semantics on the engine's inputs) so that every
definition evaluates by kernel reduction. -/

/-- Split a character list at every occurrence of `sep`
(`"a:b".split(":") = ["a","b"]`, `"".split(":") = [""]`). -/
def splitOnChar (sep : Char) : List Char → List (List Char)
  | [] => [[]]
  | c :: rest =>
    let r := splitOnChar sep rest
    if c == sep then [] :: r
    else
      match r with
      | h :: t => (c :: h) :: t
      | [] => [[c]]

/-- Split a string at a single-character separator. -/
def splitC (s : String) (sep : Char) : List String :=
  (splitOnChar sep s.toList).map List.asString

/-- Does `pat` start the list? -/
def startsL : List Char → List Char → Bool
  | [], _ => true
  | _ :: _, [] => false
  | a :: as, b :: bs => a == b && startsL as bs

/-- Does `pat` occur anywhere in the list (`pat in s`)? -/
def occursL (pat : List Char) : List Char → Bool
  | [] => pat == []
  | l@(_ :: rest) => startsL pat l || occursL pat rest

/-- Break a list at the first occurrence of `pat`, returning the part
before it and the part after it. -/
def breakOnL (pat : List Char) : List Char → Option (List Char × List Char)
  | [] => if pat == [] then some ([], []) else none
  | l@(c :: rest) =>
    if startsL pat l then some ([], l.drop pat.length)
    else
      match breakOnL pat rest with
      | some (pre, post) => some (c :: pre, post)
      | none => none

/-- Python `str.strip()`: drop surrounding whitespace. -/
def pyTrim (s : String) : String :=
  (((s.toList.dropWhile Char.isWhitespace).reverse.dropWhile Char.isWhitespace).reverse).asString

/-- Python `str.lower()` (ASCII, which covers the engine's keyword and
phase vocabulary). -/
def lowerS (s : String) : String :=
  (s.toList.map Char.toLower).asString

/-- Python `str.split()` with no argument: maximal non-whitespace runs. -/
def wordsL : List Char → List Char → List (List Char)
  | [], cur => if cur.isEmpty then [] else [cur.reverse]
  | c :: rest, cur =>
    if c.isWhitespace then
      if cur.isEmpty then wordsL rest [] else cur.reverse :: wordsL rest []
    else wordsL rest (c :: cur)

/-! ## Permissive parsers

The source parses time/date strings in two different ways: `_to_minutes`
uses `int()` on the `":"`-split pieces (no range check), while
`place_single` and the day filters use `datetime.strptime`, which range
checks.  Both are modelled. -/

/-- Value of a non-empty all-digit string. -/
def digitsVal (s : String) : Nat :=
  s.toList.foldl (fun a c => 10 * a + (c.toNat - 48)) 0

/-- Is `s` a non-empty string of ASCII digits? -/
def isDigits (s : String) : Bool :=
  s.length > 0 && s.toList.all (·.isDigit)

/-- Python `int(s)`: surrounding whitespace stripped, optional sign,
decimal digits (digit-group underscores are not modelled). -/
def pyInt (s : String) : Option Int :=
  let t := pyTrim s
  match t.toList with
  | '-' :: rest => if isDigits rest.asString then some (-(digitsVal rest.asString : Int)) else none
  | '+' :: rest => if isDigits rest.asString then some (digitsVal rest.asString) else none
  | _ => if isDigits t then some (digitsVal t) else none

/-- `datetime.strptime(s, "%H:%M")`, yielding minutes of day: one or two
digits per component, hour < 24, minute < 60. -/
def parseHM (s : String) : Option Nat :=
  match splitC s ':' with
  | [h, m] =>
    if isDigits h && h.length ≤ 2 && isDigits m && m.length ≤ 2
        && digitsVal h < 24 && digitsVal m < 60 then
      some (60 * digitsVal h + digitsVal m)
    else none
  | _ => none

/-- `datetime.strptime(s, "%Y-%m-%d").date()`, with `None` both when
the format does not match and when `date()` raises.  `_strptime`'s
field patterns: `%Y` is exactly four digits (`\d\d\d\d`), `%m` one or
two digits, and `%d` one or two digits or — by the pattern's
`" [1-9]"` alternative — a space followed by one nonzero digit; the
values then pass `date()`'s validation (year ≥ 1, month 1–12, day
within the month).  A two-digit day over 31, a zero day and a `" 0"`
day all end as `None` either way (pattern or range), so folding them
into the range check is observationally exact. -/
def parseYMD (s : String) : Option Date :=
  match splitC s '-' with
  | [ys, ms, ds] =>
    let dayVal : Option Nat :=
      if isDigits ds && ds.length ≤ 2 then some (digitsVal ds)
      else
        match ds.toList with
        | [' ', c] => if c.isDigit then some (c.toNat - 48) else none
        | _ => none
    match dayVal with
    | none => none
    | some d =>
      if isDigits ys && ys.length == 4 && isDigits ms && ms.length ≤ 2 then
        let y := digitsVal ys
        let m := digitsVal ms
        if 1 ≤ y && 1 ≤ m && m ≤ 12 && 1 ≤ d && d ≤ daysInMonth y m then
          some ⟨y, m, d⟩
        else none
      else none
  | _ => none

/-- `engine._to_minutes`: `h, m = map(int, hhmm.split(":")); h*60 + m`,
with any exception (wrong arity, non-int pieces) giving `None`.  No
range check — the source accepts e.g. `"99:99"`. -/
def to_minutes (hhmm : Option String) : Option Int :=
  match hhmm with
  | none => none
  | some s =>
    if s = "" then none
    else
      match splitC s ':' with
      | [h, m] =>
        match pyInt h, pyInt m with
        | some hv, some mv => some (hv * 60 + mv)
        | _, _ => none
      | _ => none

/-- Python `f"{v:02d}"`: decimal rendering padded to width 2 with a
leading zero. -/
def pad2 (v : Int) : String :=
  let s := toString v
  if s.length < 2 then "0" ++ s else s

/-- `engine._to_hhmm`: `f"{m//60:02d}:{m%60:02d}"` with Python floor
division / modulo. -/
def to_hhmm (m : Option Int) : Option String :=
  match m with
  | none => none
  | some v => some (pad2 (Int.fdiv v 60) ++ ":" ++ pad2 (Int.emod v 60))

/-- Python truthiness of an optional string: `None` and `""` are falsy. -/
def truthyS (o : Option String) : Bool :=
  match o with
  | none => false
  | some s => s ≠ ""

/-! ## Speed model (`rules.py` constants, `engine.leg_minutes`) -/

def CITY_SPEED_MPH : ℚ := 22
def HWY_SPEED_MPH : ℚ := 38
def HWY_THRESHOLD_MILES : ℚ := 18
def START_TIME : ℚ := 450          -- 07:30 as minutes of day
def LUNCH_START : ℚ := 630         -- 10:30
def LUNCH_END : ℚ := 690           -- 11:30
def LUNCH_MINUTES : ℚ := 30

/-- `engine.leg_minutes`. -/
def leg_minutes (miles : ℚ) : ℚ :=
  if miles ≥ HWY_THRESHOLD_MILES then 60 * (miles / HWY_SPEED_MPH)
  else 60 * (miles / CITY_SPEED_MPH)

/-! ## Tunables (`engine.py`) -/

def DEFAULT_DURATION_HOURS : ℚ := 1.5
def BACKTRACK_TOL : ℚ := 0.01
def NON_MONO_ALLOW : ℚ := 2.0
def LAMBDA_PROGRESS : ℚ := 0.8
def CAMPUS_DIST_MI : ℚ := 0.90
def LONG_HAUL_THRESHOLD_MI : ℚ := 80.0
def LONG_HAUL_MIN_PMS : Int := 2
def LONG_HAUL_MAX_PMS : Int := 3
def LONG_HAUL_OT_BUFFER_MIN : ℚ := 90
def LONG_HAUL_CLUSTER_RADIUS : ℚ := 20.0

/-! ## Data model (`models.py` records, engine-relevant fields) -/

/-- `models.Office` (region-keyed reference record). -/
structure Office where
  region : String
  name : String
  lat : Option ℚ
  lon : Option ℚ
deriving DecidableEq, Repr

/-- `models.Tech`.  The source stores `first_appt` / `latest_return` as
`"HH:MM"` strings parsed with `strptime` at each use (an unparsable
value would raise); they are modelled directly as minutes of day. -/
structure Tech where
  name : String
  region : String
  first_appt : ℚ
  latest_return : ℚ
  max_pms_per_day : Int
deriving DecidableEq, Repr

/-- `models.Property` (engine-relevant fields; address fields unused by
the engine are omitted).  Named `Prop'` because `Prop` is taken. -/
structure Prop' where
  id : Int
  name : String
  customer : String
  lat : Option ℚ
  lon : Option ℚ
deriving DecidableEq, Repr

/-- `models.MonthJob` (engine-relevant fields; `month`, `property_id`,
`priority`, `notes` are never read by the engine).  `id` is an
`Optional[int]` in the source; integer ids are modelled. -/
structure MonthJob where
  id : Int
  type : String
  duration_hours : Option ℚ
  fixed_date : Option String
  phase : Option String
  time_window_start : Option String
  time_window_end : Option String
  must_be_last_thursday : Int
  assigned_tech : Option String
deriving DecidableEq, Repr

/-- `engine.Placed` output record.  Timestamps are minutes of the
scheduled day; the float formatting inside `reasoning` is rendered with
the exact rational instead of `"%.1f"`. -/
structure Placed where
  job_id : Int
  property : String
  customer : String
  type : String
  start : ℚ
  «end» : ℚ
  drive_min_from_prev : ℚ
  reasoning : String
deriving DecidableEq, Repr

/-- `engine.Bundle`. -/
structure Bundle where
  members : List (MonthJob × Prop')
  total_hours : ℚ
  type_label : String
  phase : Option String
  time_window_start : Option String
  time_window_end : Option String
  fixed_date : Option String
  must_be_last_thursday : Int
  anchor_prop : Prop'
  pm_count : Int
deriving DecidableEq, Repr

/-- An element of the engine's mixed pool: a `(MonthJob, Property)`
tuple or a `Bundle`. -/
inductive Item where
  | single : MonthJob → Prop' → Item
  | bundle : Bundle → Item
deriving DecidableEq, Repr

/-- Abstract great-circle distance function standing in for
`engine.haversine_mi` (its transcendental value is irrelevant to every
verified property, which holds for an arbitrary distance function). -/
def HavFn : Type := (ℚ × ℚ) → (ℚ × ℚ) → ℚ

/-! ## Distances (`engine.py`) -/

/-- `engine.safe_leg_distance`: `1e9` when any coordinate is missing. -/
def safe_leg_distance (hav : HavFn) (aLat aLon bLat bLon : Option ℚ) : ℚ :=
  match aLat, aLon, bLat, bLon with
  | some a, some b, some x, some y => hav (a, b) (x, y)
  | _, _, _, _ => 1000000000

/-- `engine.distance_to_office_mi`: `-1.0` when any coordinate is
missing. -/
def distance_to_office (hav : HavFn) (p : Prop') (office : Office) : ℚ :=
  match p.lat, p.lon, office.lat, office.lon with
  | some a, some b, some x, some y => hav (a, b) (x, y)
  | _, _, _, _ => -1

/-- `engine.is_long_haul`. -/
def is_long_haul (hav : HavFn) (p : Prop') (office : Office) : Bool :=
  let d := distance_to_office hav p office
  decide (d ≥ 0) && decide (d ≥ LONG_HAUL_THRESHOLD_MI)

/-- `engine.within_cluster`. -/
def within_cluster (hav : HavFn) (pivot cand : Prop') (radius : ℚ) : Bool :=
  match pivot.lat, pivot.lon, cand.lat, cand.lon with
  | some a, some b, some x, some y => decide (hav (a, b) (x, y) ≤ radius)
  | _, _, _, _ => false

/-! ## PM detection (`engine.is_pm_like`) -/

/-- Python `" ".join(s.split())`: collapse whitespace runs. -/
def normWS (s : String) : String :=
  (List.intercalate [' '] (wordsL s.toList [])).asString

/-- Substring test (`pat in s`). -/
def hasSub (s pat : String) : Bool :=
  occursL pat.toList s.toList

/-- `engine.is_pm_like`. -/
def is_pm_like (s : String) : Bool :=
  if s = "" then false
  else
    let t := normWS (lowerS s)
    if ["repair", "service call", "emergency"].any (fun x => hasSub t x) then false
    else
      ["pm", "preventive", "maintenance", "monthly", "bi month", "bi-month",
       "bimonth", "bi monthly", "quarter", "qtr", "semiannual", "semi-annual",
       "biannual", "annual", "weekly"].any (fun sig => hasSub t sig)

/-- Service duration in hours: the job's if positive, else the 1.5 h
default (`mj.duration_hours if (mj.duration_hours and mj.duration_hours
> 0) else DEFAULT_DURATION_HOURS`). -/
def durOf (mj : MonthJob) : ℚ :=
  match mj.duration_hours with
  | some v => if v > 0 then v else DEFAULT_DURATION_HOURS
  | none => DEFAULT_DURATION_HOURS

/-! ## Stable sorting

Python's `sorted`/`list.sort` is stable (also with `reverse=True`).
`sortStable lt` is insertion sort with a *strict* precedence test:
`x` is inserted into the sorted tail (elements originally after `x`)
before the first `y` without `lt y x`, so elements with equal keys
keep their original order.  Ascending stable sort by a key uses
`lt y x := key y < key x`, descending uses `>`. -/

def insertStable (lt : α → α → Bool) (x : α) : List α → List α
  | [] => [x]
  | y :: ys => if lt y x then y :: insertStable lt x ys else x :: y :: ys

def sortStable (lt : α → α → Bool) : List α → List α
  | [] => []
  | x :: xs => insertStable lt x (sortStable lt xs)

/-! ## Campus bundling (`engine.can_bundle`, `engine.build_bundles`) -/

/-- Maximum of a list of integers (`none` on the empty list). -/
def listMax : List Int → Option Int
  | [] => none
  | x :: xs => some (xs.foldl max x)

/-- Minimum of a list of integers (`none` on the empty list). -/
def listMin : List Int → Option Int
  | [] => none
  | x :: xs => some (xs.foldl min x)

/-- Python `max` over a list that may contain `None`: a single element
is returned without comparison, otherwise any `None` raises
`TypeError`.  (`can_bundle` reaches this via
`max(starts)` where `starts` keeps the `None`s produced by
`_to_minutes` on unparsable declared windows.) -/
def pyMaxOpt : List (Option Int) → Except String (Option Int)
  | [] => .error "ValueError: max() arg is an empty sequence"
  | [x] => .ok x
  | l =>
    if l.all (·.isSome) then
      match listMax (l.filterMap id) with
      | some m => .ok (some m)
      | none => .error "TypeError: comparison between int and NoneType"
    else .error "TypeError: comparison between int and NoneType"

/-- Python `min` over a list that may contain `None` (see `pyMaxOpt`). -/
def pyMinOpt : List (Option Int) → Except String (Option Int)
  | [] => .error "ValueError: min() arg is an empty sequence"
  | [x] => .ok x
  | l =>
    if l.all (·.isSome) then
      match listMin (l.filterMap id) with
      | some m => .ok (some m)
      | none => .error "TypeError: comparison between int and NoneType"
    else .error "TypeError: comparison between int and NoneType"

/-- `engine.can_bundle`.  Python set iteration order (for
`list(fixeds)[0]` / `list(phases)[0]`) is unspecified; it is refined
here by `List.dedup` order, which only matters when the sets have more
than one element (where the source itself is nondeterministic across
hash seeds). -/
def can_bundle (members : List (MonthJob × Prop')) : Except String (Option Bundle) :=
  match members with
  | [] => .ok none
  | m0 :: _ =>
    let total_h := members.foldl (fun a mp => a + durOf mp.1) 0
    let pm_cnt : Int := (members.filter (fun mp => is_pm_like mp.1.type)).length
    let fixeds := (members.map (fun mp => pyTrim (mp.1.fixed_date.getD ""))).dedup
    let fixed_norm := fixeds.filter (· ≠ "")
    if fixed_norm.length > 1 then .ok none
    else
      let fixed_val := fixed_norm.head?
      if members.any (fun mp =>
          !(mp.1.must_be_last_thursday == 0) && !(mp.1.must_be_last_thursday == 1)) then
        .ok none
      else
        let last_thu : Int :=
          if members.all (fun mp => mp.1.must_be_last_thursday == 1) then 1 else 0
        let phases := (members.map (fun mp => lowerS (pyTrim (mp.1.phase.getD "")))).dedup
        let phase_val : Option String :=
          if (phases.filter (· ≠ "")).length == 1 then phases.head? else none
        let starts := members.filterMap (fun mp =>
          if truthyS mp.1.time_window_start then some (to_minutes mp.1.time_window_start) else none)
        let ends := members.filterMap (fun mp =>
          if truthyS mp.1.time_window_end then some (to_minutes mp.1.time_window_end) else none)
        match (if starts.isEmpty then Except.ok none else pyMaxOpt starts),
              (if ends.isEmpty then Except.ok none else pyMinOpt ends) with
        | .error e, _ => .error e
        | .ok _, .error e => .error e
        | .ok start_int, .ok end_int =>
          let infeasible :=
            match start_int, end_int with
            | some s, some e => decide (s > e)
            | _, _ => false
          if infeasible then .ok none
          else
            let n := members.length
            .ok (some
              { members := members
                total_hours := total_h
                type_label := s!"PM Bundle ({n})"
                phase := phase_val
                time_window_start := to_hhmm start_int
                time_window_end := to_hhmm end_int
                fixed_date := fixed_val
                must_be_last_thursday := last_thu
                anchor_prop := m0.2
                pm_count := pm_cnt })

/-- Python `max(iterable, key=...)`: first maximal element wins ties. -/
def maxByFirst (key : α → ℚ) : α → List α → α
  | best, [] => best
  | best, x :: xs => if key x > key best then maxByFirst key x xs else maxByFirst key best xs

/-- Anchor property of a pool element. -/
def anchorPropOf : Item → Prop'
  | .bundle b => b.anchor_prop
  | .single _ p => p

/-- Sort key used at the end of `build_bundles` (`farthest_key`). -/
def farthest_key (hav : HavFn) (office : Office) (x : Item) : ℚ :=
  let d := distance_to_office hav (anchorPropOf x) office
  if d ≥ 0 then d else -1

/-- Emission decision for one connected component of size ≥ 2 in
`build_bundles`: a bundle with the farthest member as anchor when
`can_bundle` succeeds, otherwise every member individually. -/
def emitComponent (hav : HavFn) (office : Office)
    (members : List (MonthJob × Prop')) : Except String (List Item) := do
  match ← can_bundle members with
  | some b =>
    let key := fun (p : Prop') =>
      let d := distance_to_office hav p office
      if d ≥ 0 then d else -1
    match members.map (·.2) with
    | p0 :: ps => pure [Item.bundle { b with anchor_prop := maxByFirst key p0 ps }]
    | [] => pure [Item.bundle b]
  | none => pure (members.map (fun mp => Item.single mp.1 mp.2))

/-- Edge of the proximity graph for the index pair `i < j` (the source
computes `haversine_mi(p_i, p_j)` with the smaller index first). -/
def edge (hav : HavFn) (items : List (MonthJob × Prop')) (i j : Nat) : Bool :=
  match items.get? i, items.get? j with
  | some (_, pa), some (_, pb) =>
    match pa.lat, pa.lon, pb.lat, pb.lon with
    | some a, some b, some x, some y => decide (hav (a, b) (x, y) ≤ CAMPUS_DIST_MI)
    | _, _, _, _ => false
  | _, _ => false

/-- `adj[v]` of the source: neighbour indices in ascending order. -/
def neighborsOf (hav : HavFn) (items : List (MonthJob × Prop')) (n v : Nat) : List Nat :=
  (List.range n).filter (fun w =>
    if w < v then edge hav items w v
    else if v < w then edge hav items v w
    else false)

/-- The `while stack:` DFS of `build_bundles`: `stack.pop()` takes the
most recently pushed index; unseen neighbours are marked, pushed and
appended to the component in ascending order.  Each push marks an index
seen, so `fuel = n + 1` never runs out. -/
def bfsLoop (nbrs : Nat → List Nat) :
    Nat → List Nat → List Nat → Array Bool → List Nat × Array Bool
  | 0, _, comp, seen => (comp, seen)
  | _ + 1, [], comp, seen => (comp, seen)
  | fuel + 1, v :: stack, comp, seen =>
    let ws := (nbrs v).filter (fun w => !(seen.getD w true))
    let seen' := ws.foldl (fun a w => a.setD w true) seen
    bfsLoop nbrs fuel (ws.reverse ++ stack) (comp ++ ws) seen'

/-- Body of the `for i in range(n):` loop of `build_bundles`: skip seen
indices, emit coordinate-less items as singles, otherwise flood the
proximity component of `i` and emit it through `emitComponent`. -/
def bbStep (hav : HavFn) (office : Office) (items : List (MonthJob × Prop'))
    (n : Nat) (st : List Item × Array Bool) (i : Nat) :
    Except String (List Item × Array Bool) :=
  let (out, seen) := st
  if seen.getD i true then Except.ok (out, seen)
  else
    match items.get? i with
    | none => Except.ok (out, seen)
    | some (mj, p) =>
      if p.lat.isNone || p.lon.isNone then
        Except.ok (out ++ [Item.single mj p], seen.setD i true)
      else
        match bfsLoop (neighborsOf hav items n) (n + 1) [i] [i] (seen.setD i true) with
        | (comp, seen') =>
          if comp.length == 1 then Except.ok (out ++ [Item.single mj p], seen')
          else do
            let emitted ← emitComponent hav office (comp.filterMap (fun k => items.get? k))
            pure (out ++ emitted, seen')

/-- `engine.build_bundles`. -/
def build_bundles (hav : HavFn) (jobs : List (MonthJob × Prop'))
    (office : Office) : Except String (List Item) :=
  let items := jobs
  let n := items.length
  if n ≤ 1 then .ok (items.map (fun mp => Item.single mp.1 mp.2))
  else do
    let (out, _) ← (List.range n).foldlM (bbStep hav office items n) ([], Array.mkArray n false)
    pure (sortStable (fun x y => farthest_key hav office x > farthest_key hav office y) out)

/-! ## Day placement engine (`engine.schedule_month`)

The mutable locals of the per-day block of `schedule_month` become the
fields of `DayState`.  The closures `place_single` / `place_bundle`
read and write this state (`place_single` mutates only the nonlocal
`lunch_taken`; `place_bundle` additionally saves/restores and finally
advances `current`). -/

/-- The per-day mutable locals of `schedule_month` (the unused
`placed_prop_ids` set is omitted). -/
structure DayState where
  remaining : List Item
  day_plan : List Placed
  current : ℚ
  last_lat : Option ℚ
  last_lon : Option ℚ
  lunch_taken : Bool
  prev_office_dist : Option ℚ
  pm_count : Int
  long_haul_active : Bool
  long_haul_anchor : Option Prop'
  min_pms_required : Int
  max_pms_allowed : Int
  latest_return_override : Option ℚ
deriving DecidableEq, Repr

/-- Run context: the abstract distance function plus the reference
records fetched once per run. -/
structure Ctx where
  hav : HavFn
  office : Office
  tech : Tech

/-- Duck-typed argument of `place_single`: either a real `MonthJob` or
the synthetic bundle-arrival object `_M` built in `place_bundle`. -/
structure JL where
  id : Int
  time_window_start : Option String
  time_window_end : Option String
  duration_hours : Option ℚ
  type : String
deriving DecidableEq, Repr

/-- View of a `MonthJob` through `place_single`'s `getattr` accesses. -/
def jlOf (mj : MonthJob) : JL :=
  ⟨mj.id, mj.time_window_start, mj.time_window_end, mj.duration_hours, mj.type⟩

/-- Drive minutes back to the office from a property (`back_drive` in
`place_single`): 0 when a coordinate is missing. -/
def backDrive (c : Ctx) (p : Prop') : ℚ :=
  match p.lat, p.lon, c.office.lat, c.office.lon with
  | some a, some b, some x, some y => leg_minutes (c.hav (a, b) (x, y))
  | _, _, _, _ => 0

/-- The drive-minutes leg computed at the top of `place_single` (0 when
an endpoint coordinate is missing). -/
def driveMinOf (c : Ctx) (fl fo : Option ℚ) (p : Prop') : ℚ :=
  match fl, fo, p.lat, p.lon with
  | some fa, some fb, some pa, some po => leg_minutes (c.hav (fa, fb) (pa, po))
  | _, _, _, _ => 0

/-- The `drive_reason` string of `place_single`. -/
def driveReasonOf (c : Ctx) (fl fo : Option ℚ) (p : Prop') : String :=
  match fl, fo, p.lat, p.lon with
  | some fa, some fb, some pa, some po =>
    let dm := leg_minutes (c.hav (fa, fb) (pa, po))
    s!"drive={dm} min"
  | _, _, _, _ => "no coords → assumed 0 drive"

/-- The arrival time `place_single` computes before the lunch
adjustment: `max(current, first_appt, window start) + drive`. -/
def arrivalPreLunch (c : Ctx) (S : DayState) (mj : JL) (driveMin : ℚ) : ℚ :=
  let earliest := max S.current c.tech.first_appt
  let earliest :=
    match mj.time_window_start with
    | some s => match parseHM s with
      | some t => max earliest (t : ℚ)
      | none => earliest
    | none => earliest
  earliest + driveMin

/-- `place_single`'s pre-lunch arrival for a given from-location. -/
def psArrive0 (c : Ctx) (S : DayState) (mj : JL) (p : Prop')
    (fl fo : Option ℚ) : ℚ :=
  arrivalPreLunch c S mj (driveMinOf c fl fo p)

/-- Whether this `place_single` call consumes the lunch break: lunch
not yet taken and the pre-lunch arrival inside the 10:30–11:30 window. -/
def psTakesLunch (c : Ctx) (S : DayState) (mj : JL) (p : Prop')
    (fl fo : Option ℚ) : Bool :=
  !S.lunch_taken && decide (LUNCH_START ≤ psArrive0 c S mj p fl fo)
    && decide (psArrive0 c S mj p fl fo ≤ LUNCH_END)

/-- The day state after a `place_single` call: only the nonlocal
`lunch_taken` can change. -/
def psState (c : Ctx) (S : DayState) (mj : JL) (p : Prop')
    (fl fo : Option ℚ) : DayState :=
  { S with lunch_taken := S.lunch_taken || psTakesLunch c S mj p fl fo }

/-- `engine.place_single` (closure inside `schedule_month`).  Returns
the optional `Placed` and the day state, whose only changed field is
the nonlocal `lunch_taken`. -/
def place_single (c : Ctx) (S : DayState) (mj : JL) (p : Prop')
    (fromLat fromLon : Option ℚ) (tag : String) (ovr : Option ℚ) :
    Option Placed × DayState :=
  let drive_min := driveMinOf c fromLat fromLon p
  let arrive0 := psArrive0 c S mj p fromLat fromLon
  let arrive := if psTakesLunch c S mj p fromLat fromLon then arrive0 + LUNCH_MINUTES else arrive0
  let S' := psState c S mj p fromLat fromLon
  let rejectWindowEnd :=
    match mj.time_window_end with
    | some s => match parseHM s with
      | some t => decide (arrive > (t : ℚ))
      | none => false
    | none => false
  if rejectWindowEnd then (none, S')
  else
    let duration :=
      match mj.duration_hours with
      | some v => if v > 0 then v else DEFAULT_DURATION_HOURS
      | none => DEFAULT_DURATION_HOURS
    let end_service := arrive + 60 * duration
    let latest_return := ovr.getD c.tech.latest_return
    if end_service + backDrive c p > latest_return then (none, S')
    else
      let nm := p.name
      let dr := driveReasonOf c fromLat fromLon p
      (some
        { job_id := mj.id
          property := p.name
          customer := p.customer
          type := if mj.type == "" then "monthly" else mj.type
          start := arrive
          «end» := end_service
          drive_min_from_prev := drive_min
          reasoning := s!"{nm}: {tag}; {dr}; windows/lunch/return honored." }, S')

/-- Python `round(x, 1)` on the first in-campus hop's drive (banker's
float rounding abstracted to rational half-up rounding). -/
def round1 (q : ℚ) : ℚ := (round (10 * q) : ℤ) / 10

/-- The `re.sub(r"drive=\s*[\d.]+\s*min", ...)` fix-up applied to the
first bundle member's reasoning text: rewrite the first
`drive=... min` fragment, leave the string unchanged when the pattern
does not occur (the "no coords" reason). -/
def replaceDrive (s : String) (q : ℚ) : String :=
  match breakOnL "drive=".toList s.toList with
  | none => s
  | some (pre, post) =>
    match breakOnL " min".toList post with
    | none => s
    | some (_, rest) =>
      (pre ++ "drive=".toList ++ (toString q).toList ++ " min".toList ++ rest).asString

/-- Member loop of `place_bundle`: place each member in
nearest-to-anchor order from the previous member's location/time; the
outer `current` is saved and restored around every member placement
(`lunch_taken` changes persist); abandon the whole bundle on the first
failing member.  `idx = 0` receives the first-leg drive fix-up. -/
def placeBundleMembers (c : Ctx) (firstDrive : ℚ) (ovr : Option ℚ) :
    List (MonthJob × Prop') → Nat → Option ℚ → Option ℚ → ℚ → List Placed → DayState →
    Option (List Placed) × DayState
  | [], _, _, _, _, seq, S => (some seq, S)
  | (mj, p) :: rest, idx, currLat, currLon, currTime, seq, S =>
    let Stmp := { S with current := currTime }
    match place_single c Stmp (jlOf mj) p currLat currLon "in-campus hop" ovr with
    | (none, S2) => (none, { S2 with current := S.current })
    | (some pl, S2) =>
      let S3 := { S2 with current := S.current }
      let pl :=
        if idx == 0 then
          { pl with
              drive_min_from_prev := round1 firstDrive
              reasoning := replaceDrive pl.reasoning (round1 firstDrive) }
        else pl
      let nextLat := match p.lat with | some v => some v | none => currLat
      let nextLon := match p.lon with | some v => some v | none => currLon
      placeBundleMembers c firstDrive ovr rest (idx + 1) nextLat nextLon pl.«end» (seq ++ [pl]) S3

/-- `engine.place_bundle` (closure inside `schedule_month`). -/
def place_bundle (c : Ctx) (S : DayState) (b : Bundle)
    (fromLat fromLon : Option ℚ) (tag : String) (ovr : Option ℚ) :
    Option (List Placed) × DayState :=
  let M : JL := ⟨-1, b.time_window_start, b.time_window_end, some b.total_hours, b.type_label⟩
  let anchor := b.anchor_prop
  let P : Prop' := ⟨0, "[Campus]", anchor.customer, anchor.lat, anchor.lon⟩
  match place_single c S M P fromLat fromLon s!"{tag} (bundle arrival)" ovr with
  | (none, S1) => (none, S1)
  | (some first, S1) =>
    let startLat := match anchor.lat, anchor.lon with
      | some _, some _ => anchor.lat
      | _, _ => fromLat
    let startLon := match anchor.lat, anchor.lon with
      | some _, some _ => anchor.lon
      | _, _ => fromLon
    let inner := sortStable
      (fun t u =>
        safe_leg_distance c.hav anchor.lat anchor.lon t.2.lat t.2.lon <
          safe_leg_distance c.hav anchor.lat anchor.lon u.2.lat u.2.lon)
      b.members
    match placeBundleMembers c first.drive_min_from_prev ovr inner 0 startLat startLon first.start [] S1 with
    | (none, S2) => (none, S2)
    | (some seq, S2) =>
      let endT := match seq.getLast? with | some pl => pl.«end» | none => first.«end»
      (some seq, { S2 with current := endT })

/-- PM-count requirement of a pool element (`needed_pm` / `need_pm`). -/
def pmNeed : Item → Int
  | .bundle b => b.pm_count
  | .single mj _ => if is_pm_like mj.type then 1 else 0

/-- Day-eligibility filter applied to the remaining pool (identical in
the anchor step and in every backhaul pass): fixed date (parse failure
= unconstrained), last-Thursday requirement, phase. -/
def eligibleDay (d : Date) (it : Item) : Bool :=
  let fixedOK := fun (f : Option String) =>
    if truthyS f then
      match parseYMD (f.getD "") with
      | some fd => fd == d
      | none => true
    else true
  let mustOK := fun (m : Int) => (m == 0) || is_last_thursday d
  let phaseOK := fun (p : Option String) => !truthyS p || is_in_phase d p
  match it with
  | .bundle b => fixedOK b.fixed_date && mustOK b.must_be_last_thursday && phaseOK b.phase
  | .single mj _ => fixedOK mj.fixed_date && mustOK mj.must_be_last_thursday && phaseOK mj.phase

/-- The long-haul activation check run after every successful anchor
placement (`if not long_haul_active and _is_long_haul(...)`). -/
def lhActivate (c : Ctx) (pr : Prop') (S : DayState) : DayState :=
  if !S.long_haul_active && is_long_haul c.hav pr c.office then
    { S with
      long_haul_active := true
      long_haul_anchor := some pr
      min_pms_required := LONG_HAUL_MIN_PMS
      max_pms_allowed := LONG_HAUL_MAX_PMS
      latest_return_override := some (c.tech.latest_return + LONG_HAUL_OT_BUFFER_MIN) }
  else S

/-- The property the long-haul check inspects after a bundle placement
(`item.members[0][1] if item.members else item.anchor_prop`). -/
def firstRealOf (b : Bundle) : Prop' :=
  match b.members with
  | (_, p) :: _ => p
  | [] => b.anchor_prop

/-- Tracker updates common to every successful bundle placement: append
the stops, add the bundle's PM count, move the location tracker to the
last member (when it has coordinates), consume the pool element, and
record the new distance-from-office. -/
def placedBundleState (b : Bundle) (seq : List Placed) (pod : Option ℚ)
    (S' : DayState) : DayState :=
  let lastP : Option Prop' := (b.members.getLast?).map (·.2)
  { S' with
    day_plan := S'.day_plan ++ seq
    pm_count := S'.pm_count + b.pm_count
    last_lat := match lastP with
      | some lp => match lp.lat, lp.lon with
        | some _, some _ => lp.lat
        | _, _ => S'.last_lat
      | none => S'.last_lat
    last_lon := match lastP with
      | some lp => match lp.lat, lp.lon with
        | some _, some _ => lp.lon
        | _, _ => S'.last_lon
      | none => S'.last_lon
    remaining := S'.remaining.erase (Item.bundle b)
    prev_office_dist := pod }

/-- Tracker updates common to every successful single placement. -/
def placedSingleState (mj : MonthJob) (p : Prop') (pl : Placed)
    (pod : Option ℚ) (S' : DayState) : DayState :=
  { S' with
    day_plan := S'.day_plan ++ [pl]
    pm_count := S'.pm_count + (if is_pm_like mj.type then 1 else 0)
    current := pl.«end»
    last_lat := match p.lat, p.lon with
      | some _, some _ => p.lat
      | _, _ => S'.last_lat
    last_lon := match p.lat, p.lon with
      | some _, some _ => p.lon
      | _, _ => S'.last_lon
    remaining := S'.remaining.erase (Item.single mj p)
    prev_office_dist := pod }

/-- Anchor phase (`for kind, item in pool_sorted:`): try candidates in
order; skip those exceeding the PM cap; place the first feasible one,
consume it, update trackers, run the long-haul activation check, and
stop.  Returns whether something was placed.  Failed placement
attempts keep only their `lunch_taken` mutation. -/
def tryFirst (c : Ctx) (cap : Int) : List Item → DayState → Bool × DayState
  | [], S => (false, S)
  | it :: rest, S =>
    if decide (S.pm_count + pmNeed it > cap) then tryFirst c cap rest S
    else
      match it with
      | .bundle b =>
        (match place_bundle c S b S.last_lat S.last_lon "farthest-first (bundle)" S.latest_return_override with
         | (none, S') => tryFirst c cap rest S'
         | (some seq, S') =>
           let dop := match (b.members.getLast?).map (·.2) with
             | some lp => distance_to_office c.hav lp c.office
             | none => (-1 : ℚ)
           let S2 := placedBundleState b seq
             (if dop ≥ 0 then some dop else S'.prev_office_dist) S'
           (true, lhActivate c (firstRealOf b) S2))
      | .single mj p =>
        (match place_single c S (jlOf mj) p S.last_lat S.last_lon "farthest-first (single)" S.latest_return_override with
         | (none, S') => tryFirst c cap rest S'
         | (some pl, S') =>
           let dop := distance_to_office c.hav p c.office
           let S2 := placedSingleState mj p pl
             (if dop ≥ 0 then some dop else S'.prev_office_dist) S'
           (true, lhActivate c p S2))

/-- Scored backhaul candidate: pool element, its distance-from-office,
its score, and the note tag of the partition it came from. -/
structure Cand where
  item : Item
  d_off : ℚ
  sc : ℚ
  tag : String
deriving Repr

/-- Backhaul candidate loop (`for cand_set, tag in ...: for (kind,
item, d_off, _sc) in cand_set:`): attempt candidates in order (closer
ones first — the caller concatenates the two sorted partitions), place
the first feasible one and consume it; failures keep only their
`lunch_taken` mutation. -/
def tryBack (c : Ctx) : List Cand → DayState → Bool × DayState
  | [], S => (false, S)
  | cd :: rest, S =>
    match cd.item with
    | .bundle b =>
      (match place_bundle c S b S.last_lat S.last_lon cd.tag S.latest_return_override with
       | (none, S') => tryBack c rest S'
       | (some seq, S') =>
         (true, placedBundleState b seq
           (if cd.d_off ≥ 0 then some cd.d_off else S'.prev_office_dist) S'))
    | .single mj p =>
      (match place_single c S (jlOf mj) p S.last_lat S.last_lon cd.tag S.latest_return_override with
       | (none, S') => tryBack c rest S'
       | (some pl, S') =>
         (true, placedSingleState mj p pl
           (if cd.d_off ≥ 0 then some cd.d_off else S'.prev_office_dist) S'))

/-- Score of a backhaul candidate (`score_for`): drive minutes from the
current location (0 when the leg is the missing-coordinate sentinel)
plus `0.8 ×` distance-from-office progress. -/
def score_for (c : Ctx) (S : DayState) (p : Prop') : ℚ × ℚ :=
  let drv := safe_leg_distance c.hav S.last_lat S.last_lon p.lat p.lon
  let drv_min := if drv < 100000000 then leg_minutes drv else 0
  let d_off := distance_to_office c.hav p c.office
  let prog := if d_off ≥ 0 then d_off else 0
  (drv_min + LAMBDA_PROGRESS * prog, d_off)

/-- One pass of the backhaul loop up to candidate ordering: re-filter
the pool by day eligibility, apply the long-haul cluster restriction
while the minimum-PM target is unmet (falling back to the unrestricted
pool if it empties), drop candidates over the caps, score the rest,
partition into "closer" / "soft", and concatenate the two
score-sorted partitions (closer ones are attempted first, exactly as
the source's two-`cand_set` loop with its `picked` flag). -/
def backhaulCands (c : Ctx) (d : Date) (cap : Int) (S : DayState) : List Cand :=
  let pool := S.remaining.filter (eligibleDay d)
  let cpool :=
    if S.long_haul_active && decide (S.pm_count < S.min_pms_required) then
      let filtered := pool.filter (fun it =>
        match S.long_haul_anchor with
        | some ap => within_cluster c.hav ap (anchorPropOf it) LONG_HAUL_CLUSTER_RADIUS
        | none => false)
      if filtered.isEmpty then pool else filtered
    else pool
  let scored := cpool.filterMap (fun it =>
    let need := pmNeed it
    if S.long_haul_active && decide (S.pm_count + need > S.max_pms_allowed) then none
    else if decide (S.pm_count + need > cap) then none
    else
      let sd := score_for c S (anchorPropOf it)
      some (it, sd.2, sd.1))
  let closer := scored.filter (fun t =>
    match S.prev_office_dist with
    | none => false
    | some pd => decide ((0 : ℚ) ≤ t.2.1) && decide (t.2.1 ≤ pd - BACKTRACK_TOL))
  let soft := scored.filter (fun t =>
    match S.prev_office_dist with
    | none => true
    | some pd =>
      if decide (t.2.1 < (0 : ℚ)) then true
      else if decide (t.2.1 ≤ pd - BACKTRACK_TOL) then false
      else decide (t.2.1 ≤ pd + NON_MONO_ALLOW))
  (sortStable (fun t u => t.2.2 < u.2.2) closer).map
    (fun t => Cand.mk t.1 t.2.1 t.2.2 "back-toward-office") ++
  (sortStable (fun t u => t.2.2 < u.2.2) soft).map
    (fun t => Cand.mk t.1 t.2.1 t.2.2 "soft-backhaul")

/-- One backhaul pass plus recursion (the `while True:` loop of step 2).
Each successful pass removes one pool element, so `fuel =
|remaining| + 1` never runs out before the loop's own `break`s. -/
def backhaul (c : Ctx) (d : Date) (cap : Int) : Nat → DayState → DayState
  | 0, S => S
  | fuel + 1, S =>
    let pool := S.remaining.filter (eligibleDay d)
    if pool.isEmpty then S
    else
      match tryBack c (backhaulCands c d cap S) S with
      | (false, S') => S'
      | (true, S') => backhaul c d cap fuel S'

/-- Result of processing one schedulable day: the optional `by_day`
entry plus the final values of the day's `remaining`, `pm_count` and
`long_haul_active` locals. -/
structure DayOut where
  entry : Option (List Placed)
  remaining : List Item
  pm_count : Int
  long_haul_active : Bool
deriving DecidableEq, Repr

/-- Synthetic whole-day note (`Placed(-1, "--", "--", "NOTE", ...)`). -/
def dayNote (msg : String) : Placed :=
  { job_id := -1, property := "--", customer := "--", type := "NOTE",
    start := 0, «end» := 0, drive_min_from_prev := 0, reasoning := msg }

/-- Initial day state (`day_plan = []`, clock at `START_TIME`, location
at the office, …). -/
def initDayState (c : Ctx) (remaining : List Item) : DayState :=
  { remaining := remaining
    day_plan := []
    current := START_TIME
    last_lat := c.office.lat
    last_lon := c.office.lon
    lunch_taken := false
    prev_office_dist := none
    pm_count := 0
    long_haul_active := false
    long_haul_anchor := none
    min_pms_required := 0
    max_pms_allowed := 999999
    latest_return_override := none }

/-- Sort key of the anchor pool (`pool_sorted`): bundles before
singles, then descending distance-from-office (unknown as `-1`). -/
def anchorKey (c : Ctx) (it : Item) : Nat × ℚ :=
  let rank : Nat := match it with | .bundle _ => 0 | .single _ _ => 1
  let d := distance_to_office c.hav (anchorPropOf it) c.office
  (rank, -(if d ≥ 0 then d else -1))

/-- Per-day placement (`schedule_month`'s body for a schedulable
workday).  An empty eligible pool yields no `by_day` entry (the source
`continue`s); a non-empty pool in which nothing places yields the
synthetic "No eligible job fit constraints" note. -/
def runDay (c : Ctx) (d : Date) (cap : Int) (remaining : List Item) : DayOut :=
  let pool := remaining.filter (eligibleDay d)
  if pool.isEmpty then
    { entry := none, remaining := remaining, pm_count := 0, long_haul_active := false }
  else
    let S0 := initDayState c remaining
    let sorted := sortStable (fun x y =>
      (anchorKey c x).1 < (anchorKey c y).1 ∨
        ((anchorKey c x).1 = (anchorKey c y).1 ∧ (anchorKey c x).2 < (anchorKey c y).2)) pool
    match tryFirst c cap sorted S0 with
    | (false, _) =>
      { entry := some [dayNote "No eligible job fit constraints for first stop."],
        remaining := remaining, pm_count := 0, long_haul_active := false }
    | (true, S1) =>
      let Sf := backhaul c d cap (S1.remaining.length + 1) S1
      { entry := if Sf.day_plan.isEmpty then none else some Sf.day_plan
        remaining := Sf.remaining
        pm_count := Sf.pm_count
        long_haul_active := Sf.long_haul_active }

/-- Key normalisation of `pm_cap_overrides`: `date` keys kept, string
keys parsed as `%Y-%m-%d` (unparsable ones dropped); later entries
overwrite earlier ones as in a Python dict. -/
def normOverrides (ov : List ((Date ⊕ String) × Int)) : List (Date × Int) :=
  ov.foldl
    (fun acc kv =>
      match kv.1 with
      | .inl dt => (acc.filter (fun e => e.1 ≠ dt)) ++ [(dt, kv.2)]
      | .inr s =>
        match parseYMD s with
        | some dt => (acc.filter (fun e => e.1 ≠ dt)) ++ [(dt, kv.2)]
        | none => acc)
    []

/-- `engine.schedule_month`'s `job_assigned_to` filter. -/
def job_assigned_to (mj : MonthJob) (tech_str : String) : Bool :=
  match mj.assigned_tech with
  | none => true
  | some a =>
    if a = "" then true
    else
      let v := lowerS (pyTrim a)
      v == "" || v == lowerS (pyTrim tech_str)

/-- Effective PM cap of a day: per-day override if present, else the
run's base cap (`cap_by_day.get(d, base_cap)`). -/
def capFor (cap_by_day : List (Date × Int)) (base_cap : Int) (d : Date) : Int :=
  ((cap_by_day.find? (fun e => e.1 == d)).map (·.2)).getD base_cap

/-- `datetime.strptime("YYYY-MM")`-style split of the `month` run
parameter (`yy, mm = map(int, month.split("-"))` plus the validity
check `date(yy, mm, 1)` would perform). -/
def parseMonth (month : String) : Except String (Nat × Nat) :=
  match splitC month '-' with
  | [ys, ms] =>
    (match pyInt ys, pyInt ms with
     | some y, some m =>
       if 1 ≤ y && y ≤ 9999 && 1 ≤ m && m ≤ 12 then Except.ok (y.toNat, m.toNat)
       else Except.error "ValueError: invalid month"
     | _, _ => Except.error "ValueError: invalid month string")
  | _ => Except.error "ValueError: month split"

/-- The held-open day set: the first `n` workdays when the
`keep_first_n_workdays_open` parameter is a positive `n`, else empty. -/
def heldOpenOf (keep : Option Int) (yy mm : Nat) (holidays : List Date) : List Date :=
  match keep with
  | some n => if n > 0 then first_n_workdays yy mm holidays n.toNat else []
  | none => []

/-- Body of the `for d in month_days(yy, mm):` loop: skip non-workdays,
emit synthetic notes for holidays and held-open days, otherwise run the
per-day placement with the day's effective cap. -/
def monthStep (c : Ctx) (holidays held_open : List Date)
    (cap_by_day : List (Date × Int)) (base_cap : Int) (keepN : Option Int)
    (st : List (Date × DayOut) × List Item) (d : Date) :
    List (Date × DayOut) × List Item :=
  let (acc, remaining) := st
  if !is_workday d then st
  else if holidays.contains d then
    (acc ++ [(d, { entry := some [dayNote "Holiday"], remaining := remaining,
                   pm_count := 0, long_haul_active := false })], remaining)
  else if held_open.contains d then
    let kn := keepN.getD 0
    (acc ++ [(d, { entry := some [dayNote s!"First {kn} working days held open"],
                   remaining := remaining, pm_count := 0, long_haul_active := false })], remaining)
  else
    let o := runDay c d (capFor cap_by_day base_cap d) remaining
    (acc ++ [(d, o)], o.remaining)

/-- The whole month loop, starting from the bundled pool. -/
def scheduleCore (c : Ctx) (holidays held_open : List Date)
    (cap_by_day : List (Date × Int)) (base_cap : Int) (keepN : Option Int)
    (yy mm : Nat) (mixed : List Item) : List (Date × DayOut) :=
  ((month_days yy mm).foldl (monthStep c holidays held_open cap_by_day base_cap keepN)
    ([], mixed)).1

/-- The month loop of `schedule_month`, recording for every processed
schedulable/holiday/held-open day its `DayOut` (the by-day mapping is
its projection, see `schedule_month`).  Days whose `entry` is `none`
(non-workdays never appear; empty-pool days do with `entry = none`)
contribute nothing to the mapping. -/
def scheduleDays (hav : HavFn) (offices : List Office) (techs : List Tech)
    (jobsAll : List (MonthJob × Prop')) (month : String) (region tech_name : String)
    (pm_cap_default : Option Int) (holidays : List Date)
    (keep_first_n_workdays_open : Option Int)
    (pm_cap_overrides : List ((Date ⊕ String) × Int)) :
    Except String (List (Date × DayOut)) := do
  let cap_by_day := normOverrides pm_cap_overrides
  let office ←
    match offices.find? (fun o => o.region == region) with
    | some o => Except.ok o
    | none => Except.error s!"No office found for region {region}"
  let tech ←
    match techs.find? (fun t => t.name == tech_name) with
    | some t => Except.ok t
    | none => Except.error s!"No tech found named {tech_name}"
  let jobs := jobsAll.filter (fun mp => job_assigned_to mp.1 tech_name)
  let mixed ← build_bundles hav jobs office
  let c : Ctx := ⟨hav, office, tech⟩
  let base_cap := pm_cap_default.getD tech.max_pms_per_day
  let ym ← parseMonth month
  pure (scheduleCore c holidays
    (heldOpenOf keep_first_n_workdays_open ym.1 ym.2 holidays) cap_by_day base_cap
    keep_first_n_workdays_open ym.1 ym.2 mixed)

/-- Projection of the recorded days onto the returned
`Dict[date, List[Placed]]`. -/
def projectDays (l : List (Date × DayOut)) : List (Date × List Placed) :=
  l.filterMap (fun e => e.2.entry.map (fun plan => (e.1, plan)))

/-- `engine.schedule_month`: the month loop with only the by-day
mapping kept. -/
def schedule_month (hav : HavFn) (offices : List Office) (techs : List Tech)
    (jobsAll : List (MonthJob × Prop')) (month : String) (region tech_name : String)
    (pm_cap_default : Option Int) (holidays : List Date)
    (keep_first_n_workdays_open : Option Int)
    (pm_cap_overrides : List ((Date ⊕ String) × Int)) :
    Except String (List (Date × List Placed)) :=
  (scheduleDays hav offices techs jobsAll month region tech_name pm_cap_default
    holidays keep_first_n_workdays_open pm_cap_overrides).map projectDays

/-! ## Specification-side definitions

These follow the wording of the spec (for refinement-style comparison
with the code-side definitions above) and provide the vocabulary of the
claims' statements. -/

/-- The members' declared-and-parseable window starts, in minutes. -/
def declStarts (ms : List (MonthJob × Prop')) : List Int :=
  ms.filterMap (fun mp =>
    if truthyS mp.1.time_window_start then to_minutes mp.1.time_window_start else none)

/-- The members' declared-and-parseable window ends, in minutes. -/
def declEnds (ms : List (MonthJob × Prop')) : List Int :=
  ms.filterMap (fun mp =>
    if truthyS mp.1.time_window_end then to_minutes mp.1.time_window_end else none)

/-- The job/property pairs physically visited by a pool element. -/
def JobIn (mj : MonthJob) (p : Prop') : Item → Prop
  | .single mj' p' => mj = mj' ∧ p = p'
  | .bundle b => (mj, p) ∈ b.members

/-- The `must_be_last_thursday` constraint carried by a pool element. -/
def itemMustLT : Item → Int
  | .single mj _ => mj.must_be_last_thursday
  | .bundle b => b.must_be_last_thursday

/-- Well-formedness of a pool element relative to the run's job list:
singles come from the list; bundles were built by `can_bundle` over
members from the list, so their stored aggregates agree with their
members.  (Established by `build_bundles`, preserved by consumption.) -/
def ItemWF (jobs : List (MonthJob × Prop')) : Item → Prop
  | .single mj p => (mj, p) ∈ jobs
  | .bundle b =>
    b.members ≠ [] ∧
    (∀ mp ∈ b.members, mp ∈ jobs) ∧
    b.pm_count = ((b.members.filter (fun mp => is_pm_like mp.1.type)).length : Int) ∧
    ((∀ mp ∈ b.members, mp.1.must_be_last_thursday = 1) → b.must_be_last_thursday = 1) ∧
    (∀ mp ∈ b.members, (pyTrim (mp.1.fixed_date.getD "") ≠ "") →
      b.fixed_date = some (pyTrim (mp.1.fixed_date.getD "")))

/-- Well-formedness of a whole pool. -/
def ItemsWF (jobs : List (MonthJob × Prop')) (items : List Item) : Prop :=
  ∀ it ∈ items, ItemWF jobs it

/-- A placed stop originating from pool element `it`: it visits one of
`it`'s job/property pairs, records that job's id and property name, and
its end time plus the drive back to the office meets `bound`. -/
def StopOf (c : Ctx) (bound : ℚ) (it : Item) (pl : Placed) : Prop :=
  ∃ mj p, JobIn mj p it ∧ pl.job_id = mj.id ∧ pl.property = p.name ∧
    pl.«end» + backDrive c p ≤ bound

/-- Provenance of a non-synthetic placed stop on day `d`: it comes from
a well-formed, day-eligible pool element, names its property, and its
end time plus the drive back to the office meets `bound`. -/
def PlacedFromW (c : Ctx) (jobs : List (MonthJob × Prop')) (d : Date)
    (bound : ℚ) (pl : Placed) : Prop :=
  ∃ it, ItemWF jobs it ∧ eligibleDay d it = true ∧ StopOf c bound it pl

/-- Day-state fields that `place_single` / `place_bundle` can never
change (everything except `lunch_taken` and `current`). -/
def OnlyLunchCurrent (S T : DayState) : Prop :=
  T.remaining = S.remaining ∧ T.day_plan = S.day_plan ∧
  T.pm_count = S.pm_count ∧ T.prev_office_dist = S.prev_office_dist ∧
  T.last_lat = S.last_lat ∧ T.last_lon = S.last_lon ∧
  T.long_haul_active = S.long_haul_active ∧
  T.long_haul_anchor = S.long_haul_anchor ∧
  T.min_pms_required = S.min_pms_required ∧
  T.max_pms_allowed = S.max_pms_allowed ∧
  T.latest_return_override = S.latest_return_override

/-- A failed placement attempt changes at most the lunch flag. -/
def OnlyLunch (S T : DayState) : Prop :=
  OnlyLunchCurrent S T ∧ T.current = S.current

/-- Everything the claims need about one recorded day: stops placed
before long-haul activation (the `pre` part, and every stop on a day
where long-haul never activated) meet the base latest-return bound;
stops placed after activation meet the bound extended by the long-haul
overtime buffer. -/
def DayGood (c : Ctx) (jobs : List (MonthJob × Prop')) (d : Date) (o : DayOut) : Prop :=
  ∀ plan, o.entry = some plan →
    ∃ pre post, plan = pre ++ post ∧
      (∀ pl ∈ pre, pl.job_id = -1 ∨
        PlacedFromW c jobs d c.tech.latest_return pl) ∧
      (∀ pl ∈ post, pl.job_id = -1 ∨
        PlacedFromW c jobs d
          (c.tech.latest_return +
            (if o.long_haul_active then LONG_HAUL_OT_BUFFER_MIN else 0)) pl)

/-- The long-haul fields of the day state are consistent: either the
policy never activated (no override), or it did and the override is
the base return bound plus the overtime buffer. -/
def LHInv (c : Ctx) (S : DayState) : Prop :=
  (S.long_haul_active = false ∧ S.latest_return_override = none) ∨
  (S.long_haul_active = true ∧
    S.latest_return_override = some (c.tech.latest_return + LONG_HAUL_OT_BUFFER_MIN) ∧
    S.max_pms_allowed = LONG_HAUL_MAX_PMS)

/-! ## Concrete fixtures

Small closed inputs used by the witnesses and counterexamples.  The
abstract distance functions are realisable by `haversine_mi`: `havZero`
is the geometry in which all referenced points coincide (the haversine
of a point with itself is exactly 0.0 even in floating point), and
`havSplit` the one in which the office sits 100 miles from a campus of
coinciding properties. -/

def havZero : HavFn := fun _ _ => 0

def havSplit : HavFn := fun a b => if a = b then 0 else 100

def officeW : Office := ⟨"R", "Office", some 0, some 0⟩

def techW : Tech := ⟨"T", "R", 480, 1020, 10⟩

def techLate : Tech := ⟨"T", "R", 480, 1200, 10⟩

def propW1 : Prop' := ⟨10, "P1", "Cust", some 1, some 1⟩

def propW2 : Prop' := ⟨11, "P2", "Cust", some 1, some 1⟩

def propW3 : Prop' := ⟨12, "P3", "Cust", some 1, some 1⟩

def propW4 : Prop' := ⟨13, "P4", "Cust", some 1, some 1⟩

/-- A PM-type job flagged "must be last Thursday". -/
def mjFlagged : MonthJob := ⟨1, "monthly", none, none, none, none, none, 1, none⟩

/-- A PM-type job without the last-Thursday flag. -/
def mjUnflagged : MonthJob := ⟨2, "monthly", none, none, none, none, none, 0, none⟩

/-- A plain PM-type job with the given id. -/
def mjPM (i : Int) : MonthJob := ⟨i, "monthly", none, none, none, none, none, 0, none⟩

/-- A job whose fixed date is the non-blank unparsable string "soon". -/
def mjFixedJunk : MonthJob := ⟨7, "monthly", none, some "soon", none, none, none, 0, none⟩

/-- A job with a rejectable single-stop placement: its time window ends
before the technician's first appointment. -/
def mjEarlyWindow : MonthJob := ⟨8, "monthly", none, none, none, none, some "07:00", 0, none⟩

def sep1 : Date := ⟨2025, 9, 1⟩

def sep8 : Date := ⟨2025, 9, 8⟩

def jobsMixedFlag : List (MonthJob × Prop') := [(mjFlagged, propW1), (mjUnflagged, propW2)]

def jobsLongHaul : List (MonthJob × Prop') :=
  [(mjPM 1, propW1), (mjPM 2, propW2), (mjPM 3, propW3), (mjPM 4, propW4)]

def jobsFixedJunk : List (MonthJob × Prop') := [(mjFixedJunk, propW1)]

/-- Members with an infeasible intersected window (start 12:00 > end
11:00). -/
def msInfeasible : List (MonthJob × Prop') :=
  [(⟨21, "monthly", none, none, none, some "12:00", none, 0, none⟩, propW1),
   (⟨22, "monthly", none, none, none, some "09:00", some "11:00", 0, none⟩, propW2)]

/-- Members with a feasible intersected window ([10:00, 14:00]). -/
def msFeasible : List (MonthJob × Prop') :=
  [(⟨23, "monthly", none, none, none, some "09:00", some "15:00", 0, none⟩, propW1),
   (⟨24, "monthly", none, none, none, some "10:00", some "14:00", 0, none⟩, propW2)]

def ctxW : Ctx := ⟨havZero, officeW, techW⟩

/-- Successful result of an `Except` computation, `none` on error (used
to state concrete evaluations decidably). -/
def okOf : Except String α → Option α
  | .ok a => some a
  | .error _ => none

/-- A job with a parseable fixed date (September 1st). -/
def mjFixedOk : MonthJob :=
  ⟨9, "monthly", none, some "2025-09-01", none, none, none, 0, none⟩

def jobsFixedOk : List (MonthJob × Prop') := [(mjFixedOk, propW1)]

/-- Recorded September 2025 run over `jobsFixedJunk` (used by several
witnesses). -/
def lC1 : List (Date × DayOut) :=
  (okOf (scheduleDays havZero [officeW] [techW] jobsFixedJunk "2025-09" "R" "T"
    none [] none [])).getD []

def oC1 : DayOut :=
  ((lC1.find? (fun e => e.1 == sep1)).map (fun e => e.2)).getD ⟨none, [], 0, false⟩

def planC1 : List Placed := oC1.entry.getD []

/-- Recorded September 2025 run over `jobsMixedFlag`. -/
def lC3 : List (Date × DayOut) :=
  (okOf (scheduleDays havZero [officeW] [techW] jobsMixedFlag "2025-09" "R" "T"
    none [] none [])).getD []

def oC3 : DayOut :=
  ((lC3.find? (fun e => e.1 == sep1)).map (fun e => e.2)).getD ⟨none, [], 0, false⟩

def planC3 : List Placed := oC3.entry.getD []

def plC3 : Placed := planC3.headD (dayNote "")

/-- Recorded September 2025 run over `jobsFixedOk`. -/
def lC5 : List (Date × DayOut) :=
  (okOf (scheduleDays havZero [officeW] [techW] jobsFixedOk "2025-09" "R" "T"
    none [] none [])).getD []

def oC5 : DayOut :=
  ((lC5.find? (fun e => e.1 == sep1)).map (fun e => e.2)).getD ⟨none, [], 0, false⟩

def planC5 : List Placed := oC5.entry.getD []

def plC5 : Placed := planC5.headD (dayNote "")

/-! # Theorems -/

/-! ## Generic lemmas -/

theorem mem_insertStable {lt : α → α → Bool} {x a : α} :
    ∀ {l : List α}, a ∈ insertStable lt x l ↔ a = x ∨ a ∈ l := by
  intro l
  induction l with
  | nil => simp [insertStable]
  | cons y ys ih =>
    simp only [insertStable]
    split
    · simp only [List.mem_cons, ih]
      tauto
    · simp only [List.mem_cons]

theorem mem_sortStable {lt : α → α → Bool} {a : α} :
    ∀ {l : List α}, a ∈ sortStable lt l ↔ a ∈ l := by
  intro l
  induction l with
  | nil => simp [sortStable]
  | cons y ys ih =>
    simp only [sortStable, mem_insertStable, ih, List.mem_cons]

/-! ## `place_single` facts -/

theorem place_single_snd (c : Ctx) (S : DayState) (mj : JL) (p : Prop')
    (fl fo : Option ℚ) (tag : String) (ovr : Option ℚ) :
    (place_single c S mj p fl fo tag ovr).2 = psState c S mj p fl fo := by
  unfold place_single
  dsimp only
  repeat' split
  all_goals rfl

theorem psState_lunch (c : Ctx) (S : DayState) (mj : JL) (p : Prop')
    (fl fo : Option ℚ) :
    (psState c S mj p fl fo).lunch_taken = S.lunch_taken ∨
      (S.lunch_taken = false ∧ (psState c S mj p fl fo).lunch_taken = true ∧
        LUNCH_START ≤ psArrive0 c S mj p fl fo ∧ psArrive0 c S mj p fl fo ≤ LUNCH_END) := by
  cases htl : psTakesLunch c S mj p fl fo with
  | false => left; simp [psState, htl]
  | true =>
    simp only [psTakesLunch, Bool.and_eq_true, Bool.not_eq_true',
      decide_eq_true_eq] at htl
    right
    refine ⟨htl.1.1, ?_, htl.1.2, htl.2⟩
    simp [psState, psTakesLunch, htl.1.1, htl.1.2, htl.2]

/-- Claim C9.  A rejected `place_single` attempt (for either rejection
reason) leaves every component of the day state unchanged except the
lunch flag, which can only go from not-taken to taken, and only when
the pre-lunch arrival fell inside the 10:30–11:30 lunch window. -/
theorem C9_place_single_rejection_frame (c : Ctx) (S : DayState) (mj : JL)
    (p : Prop') (fl fo : Option ℚ) (tag : String) (ovr : Option ℚ) (S' : DayState)
    (h : place_single c S mj p fl fo tag ovr = (none, S')) :
    S'.remaining = S.remaining ∧ S'.day_plan = S.day_plan ∧
    S'.pm_count = S.pm_count ∧ S'.current = S.current ∧
    S'.prev_office_dist = S.prev_office_dist ∧
    S'.last_lat = S.last_lat ∧ S'.last_lon = S.last_lon ∧
    S'.long_haul_active = S.long_haul_active ∧
    S'.latest_return_override = S.latest_return_override ∧
    (S'.lunch_taken = S.lunch_taken ∨
      (S.lunch_taken = false ∧ S'.lunch_taken = true ∧
        LUNCH_START ≤ psArrive0 c S mj p fl fo ∧
        psArrive0 c S mj p fl fo ≤ LUNCH_END)) := by
  have hs : S' = psState c S mj p fl fo := by
    have := place_single_snd c S mj p fl fo tag ovr
    rw [h] at this
    exact this
  subst hs
  refine ⟨rfl, rfl, rfl, rfl, rfl, rfl, rfl, rfl, rfl, ?_⟩
  exact psState_lunch c S mj p fl fo

/-- Witness for C9: a concrete rejected attempt (time-window end 07:00
before the 08:00 first appointment) at the start of a day. -/
theorem C9_witness :
    ((place_single ctxW (initDayState ctxW []) (jlOf mjEarlyWindow) propW1
        (some 0) (some 0) "farthest-first (single)" none).2).remaining =
      (initDayState ctxW []).remaining ∧
    ((place_single ctxW (initDayState ctxW []) (jlOf mjEarlyWindow) propW1
        (some 0) (some 0) "farthest-first (single)" none).2).current =
      (initDayState ctxW []).current := by
  have h := C9_place_single_rejection_frame ctxW (initDayState ctxW [])
    (jlOf mjEarlyWindow) propW1 (some 0) (some 0) "farthest-first (single)" none
    ((place_single ctxW (initDayState ctxW []) (jlOf mjEarlyWindow) propW1
        (some 0) (some 0) "farthest-first (single)" none).2)
    (by decide!)
  exact ⟨h.1, h.2.2.2.1⟩

/-! ## Claim C7: the drive-minutes speed model -/

/-- Claim C7.  For every miles value `m ≥ 18`, `leg_minutes` returns
`60·m/38`; for `0 ≤ m < 18` it returns `60·m/22`; within each regime it
is monotonically non-decreasing. -/
theorem C7_leg_minutes_speed_model :
    (∀ m : ℚ, m ≥ 18 → leg_minutes m = 60 * m / 38) ∧
    (∀ m : ℚ, 0 ≤ m → m < 18 → leg_minutes m = 60 * m / 22) ∧
    (∀ a b : ℚ, 18 ≤ a → a ≤ b → leg_minutes a ≤ leg_minutes b) ∧
    (∀ a b : ℚ, 0 ≤ a → a ≤ b → b < 18 → leg_minutes a ≤ leg_minutes b) := by
  have hhwy : ∀ m : ℚ, m ≥ 18 → leg_minutes m = 60 * m / 38 := by
    intro m hm
    unfold leg_minutes HWY_THRESHOLD_MILES HWY_SPEED_MPH
    rw [if_pos hm]
    ring
  have hcity : ∀ m : ℚ, m < 18 → leg_minutes m = 60 * m / 22 := by
    intro m hm
    unfold leg_minutes HWY_THRESHOLD_MILES CITY_SPEED_MPH
    rw [if_neg (by linarith)]
    ring
  refine ⟨hhwy, fun m _ hm => hcity m hm, ?_, ?_⟩
  · intro a b ha hab
    rw [hhwy a ha, hhwy b (le_trans ha hab)]
    linarith
  · intro a b ha hab hb
    rw [hcity a (lt_of_le_of_lt hab hb), hcity b hb]
    linarith

/-- Witness for C7 at miles 20, 5, 19 ≤ 20 and 5 ≤ 6. -/
theorem C7_witness :
    leg_minutes 20 = 60 * 20 / 38 ∧ leg_minutes 5 = 60 * 5 / 22 ∧
    leg_minutes 19 ≤ leg_minutes 20 ∧ leg_minutes 5 ≤ leg_minutes 6 := by
  refine ⟨?_, ?_, ?_, ?_⟩
  · exact C7_leg_minutes_speed_model.1 20 (by norm_num)
  · exact C7_leg_minutes_speed_model.2.1 5 (by norm_num) (by norm_num)
  · exact C7_leg_minutes_speed_model.2.2.1 19 20 (by norm_num) (by norm_num)
  · exact C7_leg_minutes_speed_model.2.2.2 5 6 (by norm_num) (by norm_num) (by norm_num)

/-! ## Claim C10: unrecognized phase tags -/

/-- Claim C10.  For every date and every non-blank phase string other
than "early"/"mid"/"late", `is_in_phase` returns `true`, so a job with
such a tag is phase-eligible on every workday of the month. -/
theorem C10_unknown_phase_always_eligible (d : Date) (p : String)
    (_h1 : p ≠ "") (h2 : p ≠ "early") (h3 : p ≠ "mid") (h4 : p ≠ "late") :
    is_in_phase d (some p) = true := by
  simp only [is_in_phase]
  by_cases hb : (decide (p = "") || decide (p = "any") || decide (p = "weekly")) = true
  · rw [if_pos hb]
  · rw [if_neg hb, if_neg h2, if_neg h3, if_neg h4]

/-- Witness for C10 at the spec's example tag "tuesday". -/
theorem C10_witness : is_in_phase sep1 (some "tuesday") = true :=
  C10_unknown_phase_always_eligible sep1 "tuesday" (by decide) (by decide)
    (by decide) (by decide)

/-! ## Claim C8: unknown region / technician fail fast -/

/-- Claim C8.  A `schedule_month` call with an unknown region, or with
a known region but unknown technician name, returns the corresponding
"not found" error before any schedule is computed — the result carries
no (partial) schedule. -/
theorem C8_unknown_refs_fail_fast (hav : HavFn) (offices : List Office)
    (techs : List Tech) (jobsAll : List (MonthJob × Prop')) (month region tname : String)
    (capd : Option Int) (hol : List Date) (keep : Option Int)
    (ovr : List ((Date ⊕ String) × Int)) :
    (offices.find? (fun o => o.region == region) = none →
      schedule_month hav offices techs jobsAll month region tname capd hol keep ovr =
        .error s!"No office found for region {region}") ∧
    (∀ office, offices.find? (fun o => o.region == region) = some office →
      techs.find? (fun t => t.name == tname) = none →
      schedule_month hav offices techs jobsAll month region tname capd hol keep ovr =
        .error s!"No tech found named {tname}") := by
  constructor
  · intro hoff
    unfold schedule_month scheduleDays
    rw [hoff]
    rfl
  · intro office hoff htech
    unfold schedule_month scheduleDays
    rw [hoff, htech]
    rfl

/-- Witness for C8: empty office table, then an office but an empty
technician table. -/
theorem C8_witness :
    schedule_month havZero [] [] [] "2025-09" "R" "T" none [] none [] =
      .error "No office found for region R" ∧
    schedule_month havZero [officeW] [] [] "2025-09" "R" "T" none [] none [] =
      .error "No tech found named T" := by
  constructor
  · exact (C8_unknown_refs_fail_fast havZero [] [] [] "2025-09" "R" "T" none [] none []).1 rfl
  · exact (C8_unknown_refs_fail_fast havZero [officeW] [] [] "2025-09" "R" "T" none [] none []).2
      officeW rfl rfl

/-! ## Claim C6: bundle time-window intersection -/

theorem okOf_eq_some {e : Except String α} {a : α} (h : okOf e = some a) :
    e = .ok a := by
  cases e with
  | ok b => simpa [okOf] using h
  | error s => simp [okOf] at h

theorem except_bind_ok (a : α) (f : α → Except String β) :
    (Except.ok a >>= f) = f a := rfl

theorem except_bind_err (e : String) (f : α → Except String β) :
    ((Except.error e : Except String α) >>= f) = .error e := rfl

theorem length_le_one_eq {l : List α} {x : α} (h1 : l.length ≤ 1) (h2 : x ∈ l) :
    l = [x] := by
  match l, h2 with
  | [y], h2 =>
    simp only [List.mem_singleton] at h2
    rw [h2]
  | a :: b :: t, _ => simp at h1

theorem pyMaxOpt_ok {l : List (Option Int)} {v : Option Int}
    (h : pyMaxOpt l = .ok v) : v = listMax (l.filterMap id) := by
  match l with
  | [] => simp [pyMaxOpt] at h
  | [x] =>
    simp only [pyMaxOpt, Except.ok.injEq] at h
    subst h
    cases x <;> rfl
  | a :: b :: t =>
    unfold pyMaxOpt at h
    split at h
    next => exact absurd h (by simp)
    next x heq => exact absurd heq (by simp)
    next =>
      split at h
      · split at h
        next heq =>
          simp only [Except.ok.injEq] at h
          rw [← h, heq]
        next => exact absurd h (by simp)
      · exact absurd h (by simp)

theorem pyMinOpt_ok {l : List (Option Int)} {v : Option Int}
    (h : pyMinOpt l = .ok v) : v = listMin (l.filterMap id) := by
  match l with
  | [] => simp [pyMinOpt] at h
  | [x] =>
    simp only [pyMinOpt, Except.ok.injEq] at h
    subst h
    cases x <;> rfl
  | a :: b :: t =>
    unfold pyMinOpt at h
    split at h
    next => exact absurd h (by simp)
    next x heq => exact absurd heq (by simp)
    next =>
      split at h
      · split at h
        next heq =>
          simp only [Except.ok.injEq] at h
          rw [← h, heq]
        next => exact absurd h (by simp)
      · exact absurd h (by simp)

theorem declStarts_eq (ms : List (MonthJob × Prop')) :
    (ms.filterMap (fun mp =>
      if truthyS mp.1.time_window_start then some (to_minutes mp.1.time_window_start)
      else none)).filterMap id = declStarts ms := by
  rw [List.filterMap_filterMap]
  unfold declStarts
  congr 1
  funext mp
  split <;> rfl

theorem declEnds_eq (ms : List (MonthJob × Prop')) :
    (ms.filterMap (fun mp =>
      if truthyS mp.1.time_window_end then some (to_minutes mp.1.time_window_end)
      else none)).filterMap id = declEnds ms := by
  rw [List.filterMap_filterMap]
  unfold declEnds
  congr 1
  funext mp
  split <;> rfl

/-- All facts `can_bundle` guarantees about a bundle it returns. -/
theorem can_bundle_ok_some {ms : List (MonthJob × Prop')} {b : Bundle}
    (h : can_bundle ms = .ok (some b)) :
    b.members = ms ∧ ms ≠ [] ∧
    b.pm_count = ((ms.filter (fun mp => is_pm_like mp.1.type)).length : Int) ∧
    ((∀ mp ∈ ms, mp.1.must_be_last_thursday = 1) → b.must_be_last_thursday = 1) ∧
    (∀ mp ∈ ms, pyTrim (mp.1.fixed_date.getD "") ≠ "" →
      b.fixed_date = some (pyTrim (mp.1.fixed_date.getD ""))) ∧
    b.time_window_start = to_hhmm (listMax (declStarts ms)) ∧
    b.time_window_end = to_hhmm (listMin (declEnds ms)) ∧
    (∀ s e, listMax (declStarts ms) = some s → listMin (declEnds ms) = some e →
      ¬ s > e) := by
  match ms with
  | [] => simp [can_bundle] at h
  | m0 :: rest =>
    unfold can_bundle at h
    dsimp only at h
    split at h
    next => simp at h
    next hlen =>
      split at h
      next => simp at h
      next hflags =>
        split at h
        next => exact absurd h (by simp)
        next => exact absurd h (by simp)
        next sInt eInt hs he =>
          have hsVal : sInt = listMax (declStarts (m0 :: rest)) := by
            rw [← declStarts_eq]
            split at hs
            next hEmp =>
              simp only [Except.ok.injEq] at hs
              rw [List.isEmpty_iff] at hEmp
              rw [hEmp, ← hs]
              rfl
            next => exact pyMaxOpt_ok hs
          have heVal : eInt = listMin (declEnds (m0 :: rest)) := by
            rw [← declEnds_eq]
            split at he
            next hEmp =>
              simp only [Except.ok.injEq] at he
              rw [List.isEmpty_iff] at hEmp
              rw [hEmp, ← he]
              rfl
            next => exact pyMinOpt_ok he
          split at h
          next => exact absurd h (by simp)
          next hInf =>
            simp only [Except.ok.injEq, Option.some.injEq] at h
            subst h
            refine ⟨rfl, by simp, rfl, ?_, ?_, by rw [hsVal], by rw [heVal], ?_⟩
            · intro hall
              have : ((m0 :: rest).all (fun mp => mp.1.must_be_last_thursday == 1)) = true := by
                rw [List.all_eq_true]
                intro mp hmp
                exact beq_iff_eq.mpr (hall mp hmp)
              simp only [this, if_true]
            · intro mp hmp hne
              have hmem : pyTrim (mp.1.fixed_date.getD "") ∈
                  (((m0 :: rest).map (fun mp => pyTrim (mp.1.fixed_date.getD ""))).dedup.filter
                    (fun s => s ≠ "")) := by
                rw [List.mem_filter]
                refine ⟨List.mem_dedup.mpr (List.mem_map.mpr ⟨mp, hmp, rfl⟩), by
                  simp [hne]⟩
              have hlen' : (((m0 :: rest).map (fun mp => pyTrim (mp.1.fixed_date.getD ""))).dedup.filter
                  (fun s => s ≠ "")).length ≤ 1 := by omega
              rw [length_le_one_eq hlen' hmem]
              rfl
            · intro s e hsx hex
              rw [hsVal] at hInf
              rw [heVal] at hInf
              rw [hsx, hex] at hInf
              simpa using hInf

/-- Claim C6.  For every component handed to the bundler: a produced
bundle's window start is the maximum of the members'
declared-and-parseable window starts and its end the minimum of the
ends; when both exist and start > end no bundle is produced
(`can_bundle` returns `None`) and the bundler emits every member of
the component individually. -/
theorem C6_bundle_window_intersection :
    (∀ ms b, can_bundle ms = .ok (some b) →
      b.time_window_start = to_hhmm (listMax (declStarts ms)) ∧
      b.time_window_end = to_hhmm (listMin (declEnds ms))) ∧
    (∀ ms r s e, can_bundle ms = .ok r →
      listMax (declStarts ms) = some s → listMin (declEnds ms) = some e →
      s > e → r = none) ∧
    (∀ (hav : HavFn) (office : Office) ms, can_bundle ms = .ok none →
      emitComponent hav office ms = .ok (ms.map (fun mp => Item.single mp.1 mp.2))) := by
  refine ⟨?_, ?_, ?_⟩
  · intro ms b h
    have hc := can_bundle_ok_some h
    exact ⟨hc.2.2.2.2.2.1, hc.2.2.2.2.2.2.1⟩
  · intro ms r s e h hs he hgt
    cases r with
    | none => rfl
    | some b =>
      have hc := can_bundle_ok_some h
      exact absurd hgt (hc.2.2.2.2.2.2.2 s e hs he)
  · intro hav office ms h
    unfold emitComponent
    rw [h]
    rfl

/-- Witness for C6: the infeasible pair (start 12:00 > end 11:00) is
rejected and emitted individually; the feasible pair produces the
intersected window [10:00, 14:00]. -/
theorem C6_witness :
    can_bundle msInfeasible = .ok none ∧
    emitComponent havZero officeW msInfeasible =
      .ok (msInfeasible.map (fun mp => Item.single mp.1 mp.2)) ∧
    (∃ b, can_bundle msFeasible = .ok (some b) ∧
      b.time_window_start = to_hhmm (listMax (declStarts msFeasible)) ∧
      b.time_window_end = to_hhmm (listMin (declEnds msFeasible)) ∧
      b.time_window_start = some "10:00" ∧ b.time_window_end = some "14:00") := by
  have h0 : can_bundle msInfeasible = .ok none := by rfl
  have hF : can_bundle msFeasible = .ok (some
      ⟨msFeasible, 3, "PM Bundle (2)", none, some "10:00", some "14:00", none, 0,
        propW1, 2⟩) := okOf_eq_some (by decide!)
  refine ⟨C6_bundle_window_intersection.2.1 msInfeasible none 720 660 h0 rfl rfl
    (by decide) ▸ h0, C6_bundle_window_intersection.2.2 havZero officeW msInfeasible h0, ?_⟩
  obtain ⟨htws, htwe⟩ := C6_bundle_window_intersection.1 msFeasible _ hF
  exact ⟨_, hF, htws, htwe, rfl, rfl⟩

/-! ## Counterexamples for C2, C3, C4, C5 -/

/-- Counterexample to C2 as stated.  A far (100 mi) campus bundle of
four PM jobs is placed as the day's first stop under a base cap of 10;
long-haul policy then activates, yet the day's PM count is 4 > 3: the
long-haul soft cap only constrains placements made after activation. -/
theorem C2_counterexample :
    (okOf (scheduleDays havSplit [officeW] [techLate] jobsLongHaul "2025-09" "R" "T"
        none [] none [])).map
      (fun l => l.filterMap (fun e =>
        if e.1 = sep1 then some (e.2.pm_count, e.2.long_haul_active) else none)) =
      some [(4, true)] ∧
    LONG_HAUL_MAX_PMS = 3 ∧ techLate.max_pms_per_day = 10 ∧
    ¬ ((4 : Int) ≤ 3) := by
  refine ⟨by decide!, rfl, rfl, by decide⟩

/-- Counterexample to C3 as stated.  The flagged job `mjFlagged`
(`must_be_last_thursday = 1`) is bundled with the unflagged job at the
same campus; the bundle's flag is the unanimity conjunction (0), so
both appear on 2025-09-01, which is not the last Thursday of the
month. -/
theorem C3_counterexample :
    (okOf (schedule_month havZero [officeW] [techW] jobsMixedFlag "2025-09" "R" "T"
        none [] none [])).map
      (fun m => (m.lookup sep1).map (fun plan => plan.map (fun s => s.job_id))) =
      some (some [1, 2]) ∧
    mjFlagged.must_be_last_thursday = 1 ∧ mjFlagged.id = 1 ∧
    (mjFlagged, propW1) ∈ jobsMixedFlag ∧
    is_last_thursday sep1 = false := by
  refine ⟨by decide!, rfl, rfl, by decide, by decide⟩

/-- Counterexample to C4 as stated.  With an empty job pool, 2025-09-08
is a schedulable workday (not a holiday, not held open) whose
day-eligibility filter leaves the pool empty, yet the returned mapping
has no entry for it at all — no synthetic "no eligible job" note is
produced for empty-pool days. -/
theorem C4_counterexample :
    (okOf (schedule_month havZero [officeW] [techW] [] "2025-09" "R" "T" none []
        (some 5) [])).map (fun m => m.lookup sep8) = some none ∧
    is_workday sep8 = true ∧
    ([] : List Date).contains sep8 = false ∧
    (heldOpenOf (some 5) 2025 9 []).contains sep8 = false ∧
    (([] : List Item).filter (eligibleDay sep8)).isEmpty = true := by
  refine ⟨by decide!, by decide, by decide, by decide!, by decide⟩

/-- Counterexample to C5 as stated.  The job with the non-blank,
unparsable fixed date "soon" is treated as having no fixed date and is
placed on 2025-09-01 — a calendar date that the string does not name
(it names none). -/
theorem C5_counterexample :
    (okOf (schedule_month havZero [officeW] [techW] jobsFixedJunk "2025-09" "R" "T"
        none [] none [])).map
      (fun m => (m.lookup sep1).map (fun plan => plan.map (fun s => s.job_id))) =
      some (some [7]) ∧
    mjFixedJunk.fixed_date = some "soon" ∧ "soon" ≠ "" ∧
    parseYMD "soon" = none ∧ mjFixedJunk.id = 7 ∧
    (mjFixedJunk, propW1) ∈ jobsFixedJunk := by
  refine ⟨by decide!, rfl, by decide, by decide, rfl, by decide⟩

/-! ## Placement lemmas -/

theorem place_single_ok (c : Ctx) (S : DayState) (mj : JL) (p : Prop')
    (fl fo : Option ℚ) (tag : String) (ovr : Option ℚ) (pl : Placed)
    (h : (place_single c S mj p fl fo tag ovr).1 = some pl) :
    pl.job_id = mj.id ∧ pl.property = p.name ∧
    pl.«end» + backDrive c p ≤ ovr.getD c.tech.latest_return := by
  unfold place_single at h
  dsimp only at h
  repeat' split at h
  all_goals dsimp only at h
  all_goals first
    | exact Option.noConfusion h
    | (simp only [Option.some.injEq] at h
       subst h
       refine ⟨rfl, rfl, ?_⟩
       first
         | exact le_of_not_lt (by assumption)
         | (simp_all; try linarith))

theorem OLC_refl (S : DayState) : OnlyLunchCurrent S S :=
  ⟨rfl, rfl, rfl, rfl, rfl, rfl, rfl, rfl, rfl, rfl, rfl⟩

theorem OLC_trans {S T U : DayState} (h1 : OnlyLunchCurrent S T)
    (h2 : OnlyLunchCurrent T U) : OnlyLunchCurrent S U := by
  obtain ⟨a1, a2, a3, a4, a5, a6, a7, a8, a9, a10, a11⟩ := h1
  obtain ⟨b1, b2, b3, b4, b5, b6, b7, b8, b9, b10, b11⟩ := h2
  exact ⟨b1.trans a1, b2.trans a2, b3.trans a3, b4.trans a4, b5.trans a5,
    b6.trans a6, b7.trans a7, b8.trans a8, b9.trans a9, b10.trans a10, b11.trans a11⟩

theorem OLC_psState (c : Ctx) (S : DayState) (mj : JL) (p : Prop')
    (fl fo : Option ℚ) : OnlyLunchCurrent S (psState c S mj p fl fo) :=
  ⟨rfl, rfl, rfl, rfl, rfl, rfl, rfl, rfl, rfl, rfl, rfl⟩

theorem OLC_setCurrent {S T : DayState} (h : OnlyLunchCurrent S T) (x : ℚ) :
    OnlyLunchCurrent S { T with current := x } := h

theorem place_single_frame (c : Ctx) (S : DayState) (mj : JL) (p : Prop')
    (fl fo : Option ℚ) (tag : String) (ovr : Option ℚ) :
    OnlyLunch S (place_single c S mj p fl fo tag ovr).2 := by
  rw [place_single_snd]
  exact ⟨OLC_psState c S mj p fl fo, rfl⟩

theorem pbm_frame (c : Ctx) (fd : ℚ) (ovr : Option ℚ) :
    ∀ (ms : List (MonthJob × Prop')) (idx : Nat) (cl co : Option ℚ) (ct : ℚ)
      (seq : List Placed) (S : DayState) (r : Option (List Placed)) (S' : DayState),
      placeBundleMembers c fd ovr ms idx cl co ct seq S = (r, S') →
      OnlyLunch S S' := by
  intro ms
  induction ms with
  | nil =>
    intro idx cl co ct seq S r S' h
    simp only [placeBundleMembers, Prod.mk.injEq] at h
    rw [← h.2]
    exact ⟨OLC_refl S, rfl⟩
  | cons mp rest ih =>
    obtain ⟨mj, p⟩ := mp
    intro idx cl co ct seq S r S' h
    simp only [placeBundleMembers] at h
    have hfr := place_single_frame c { S with current := ct }
      (jlOf mj) p cl co "in-campus hop" ovr
    cases hps : place_single c { S with current := ct } (jlOf mj) p cl co "in-campus hop" ovr with
    | mk o S2 =>
      rw [hps] at h hfr
      have hOLC : OnlyLunchCurrent S S2 := hfr.1
      cases o with
      | none =>
        simp only [Prod.mk.injEq] at h
        rw [← h.2]
        exact ⟨hOLC, rfl⟩
      | some pl0 =>
        dsimp only at h
        have hrec := ih _ _ _ _ _ _ _ _ h
        exact ⟨OLC_trans (OLC_setCurrent hOLC S.current) hrec.1, hrec.2⟩

theorem place_single_frame_eq (c : Ctx) (S : DayState) (mj : JL) (p : Prop')
    (fl fo : Option ℚ) (tag : String) (ovr : Option ℚ) (o : Option Placed)
    (T : DayState) (h : place_single c S mj p fl fo tag ovr = (o, T)) :
    OnlyLunch S T := by
  have hfr := place_single_frame c S mj p fl fo tag ovr
  rw [h] at hfr
  exact hfr

theorem place_single_ok_eq (c : Ctx) (S : DayState) (mj : JL) (p : Prop')
    (fl fo : Option ℚ) (tag : String) (ovr : Option ℚ) (pl : Placed)
    (T : DayState) (h : place_single c S mj p fl fo tag ovr = (some pl, T)) :
    pl.job_id = mj.id ∧ pl.property = p.name ∧
    pl.«end» + backDrive c p ≤ ovr.getD c.tech.latest_return :=
  place_single_ok c S mj p fl fo tag ovr pl (by rw [h])

theorem pbm_stops (c : Ctx) (fd : ℚ) (ovr : Option ℚ) :
    ∀ (ms : List (MonthJob × Prop')) (idx : Nat) (cl co : Option ℚ) (ct : ℚ)
      (seq : List Placed) (S : DayState) (out : List Placed) (S' : DayState),
      placeBundleMembers c fd ovr ms idx cl co ct seq S = (some out, S') →
      ∀ pl ∈ out, pl ∈ seq ∨ ∃ mp, mp ∈ ms ∧ pl.job_id = mp.1.id ∧
        pl.property = mp.2.name ∧
        pl.«end» + backDrive c mp.2 ≤ ovr.getD c.tech.latest_return := by
  intro ms
  induction ms with
  | nil =>
    intro idx cl co ct seq S out S' h pl hpl
    simp only [placeBundleMembers, Prod.mk.injEq, Option.some.injEq] at h
    rw [← h.1] at hpl
    exact Or.inl hpl
  | cons mp rest ih =>
    obtain ⟨mj, p⟩ := mp
    intro idx cl co ct seq S out S' h pl hpl
    simp only [placeBundleMembers] at h
    cases hps : place_single c { S with current := ct } (jlOf mj) p cl co "in-campus hop" ovr with
    | mk o S2 =>
      rw [hps] at h
      cases o with
      | none => simp at h
      | some pl0 =>
        dsimp only at h
        have hok := place_single_ok_eq c { S with current := ct } (jlOf mj) p cl co
          "in-campus hop" ovr pl0 S2 hps
        have hrec := ih _ _ _ _ _ _ _ _ h pl hpl
        cases hrec with
        | inr hex =>
          obtain ⟨mp', hmp', rest'⟩ := hex
          exact Or.inr ⟨mp', List.mem_cons_of_mem _ hmp', rest'⟩
        | inl hseq =>
          rw [List.mem_append] at hseq
          cases hseq with
          | inl hin => exact Or.inl hin
          | inr hnew =>
            simp only [List.mem_singleton] at hnew
            subst hnew
            refine Or.inr ⟨(mj, p), List.mem_cons_self _ _, ?_⟩
            split
            next => exact ⟨hok.1, hok.2.1, hok.2.2⟩
            next => exact ⟨hok.1, hok.2.1, hok.2.2⟩

theorem place_bundle_frame (c : Ctx) (S : DayState) (b : Bundle)
    (fl fo : Option ℚ) (tag : String) (ovr : Option ℚ) (r : Option (List Placed))
    (S' : DayState) (h : place_bundle c S b fl fo tag ovr = (r, S')) :
    OnlyLunchCurrent S S' ∧ (r = none → S'.current = S.current) := by
  unfold place_bundle at h
  dsimp only at h
  split at h
  next heq =>
    have hfr := place_single_frame_eq _ _ _ _ _ _ _ _ _ _ heq
    simp only [Prod.mk.injEq] at h
    rw [← h.2]
    exact ⟨hfr.1, fun _ => hfr.2⟩
  next first S1 heq =>
    have hfr1 := place_single_frame_eq _ _ _ _ _ _ _ _ _ _ heq
    split at h
    next heq2 =>
      have hfr2 := pbm_frame c first.drive_min_from_prev ovr _ _ _ _ _ _ _ _ _ heq2
      simp only [Prod.mk.injEq] at h
      rw [← h.2]
      exact ⟨OLC_trans hfr1.1 hfr2.1, fun _ => hfr2.2.trans hfr1.2⟩
    next seq S2 heq2 =>
      have hfr2 := pbm_frame c first.drive_min_from_prev ovr _ _ _ _ _ _ _ _ _ heq2
      simp only [Prod.mk.injEq] at h
      rw [← h.2]
      refine ⟨OLC_setCurrent (OLC_trans hfr1.1 hfr2.1) _, fun hc => ?_⟩
      rw [← h.1] at hc
      exact absurd hc (by simp)

theorem place_bundle_stops (c : Ctx) (S : DayState) (b : Bundle)
    (fl fo : Option ℚ) (tag : String) (ovr : Option ℚ) (seq : List Placed)
    (S' : DayState) (h : place_bundle c S b fl fo tag ovr = (some seq, S')) :
    ∀ pl ∈ seq, ∃ mp, mp ∈ b.members ∧ pl.job_id = mp.1.id ∧
      pl.property = mp.2.name ∧
      pl.«end» + backDrive c mp.2 ≤ ovr.getD c.tech.latest_return := by
  unfold place_bundle at h
  dsimp only at h
  split at h
  next => simp at h
  next first S1 heq =>
    split at h
    next => simp at h
    next seq2 S2 heq2 =>
      simp only [Prod.mk.injEq, Option.some.injEq] at h
      intro pl hpl
      rw [← h.1] at hpl
      have hrec := pbm_stops c first.drive_min_from_prev ovr _ _ _ _ _ _ _ _ _ heq2 pl hpl
      cases hrec with
      | inl hin => exact absurd hin (List.not_mem_nil pl)
      | inr hex =>
        obtain ⟨mp, hmp, rest⟩ := hex
        exact ⟨mp, mem_sortStable.mp hmp, rest⟩

theorem OL_refl (S : DayState) : OnlyLunch S S := ⟨OLC_refl S, rfl⟩

theorem OL_trans {S T U : DayState} (h1 : OnlyLunch S T) (h2 : OnlyLunch T U) :
    OnlyLunch S U := ⟨OLC_trans h1.1 h2.1, h2.2.trans h1.2⟩

theorem ItemsWF_sub {jobs : List (MonthJob × Prop')} {l m : List Item}
    (h : ItemsWF jobs l) (hs : ∀ it ∈ m, it ∈ l) : ItemsWF jobs m :=
  fun it hit => h it (hs it hit)

theorem pbs_remaining (b : Bundle) (seq : List Placed) (pod : Option ℚ) (S : DayState) :
    (placedBundleState b seq pod S).remaining = S.remaining.erase (Item.bundle b) := rfl

theorem pbs_day_plan (b : Bundle) (seq : List Placed) (pod : Option ℚ) (S : DayState) :
    (placedBundleState b seq pod S).day_plan = S.day_plan ++ seq := rfl

theorem pbs_pm (b : Bundle) (seq : List Placed) (pod : Option ℚ) (S : DayState) :
    (placedBundleState b seq pod S).pm_count = S.pm_count + b.pm_count := rfl

theorem pbs_lh (b : Bundle) (seq : List Placed) (pod : Option ℚ) (S : DayState) :
    (placedBundleState b seq pod S).long_haul_active = S.long_haul_active := rfl

theorem pbs_max (b : Bundle) (seq : List Placed) (pod : Option ℚ) (S : DayState) :
    (placedBundleState b seq pod S).max_pms_allowed = S.max_pms_allowed := rfl

theorem pbs_override (b : Bundle) (seq : List Placed) (pod : Option ℚ) (S : DayState) :
    (placedBundleState b seq pod S).latest_return_override = S.latest_return_override := rfl

theorem pss_remaining (mj : MonthJob) (p : Prop') (pl : Placed) (pod : Option ℚ)
    (S : DayState) :
    (placedSingleState mj p pl pod S).remaining = S.remaining.erase (Item.single mj p) := rfl

theorem pss_day_plan (mj : MonthJob) (p : Prop') (pl : Placed) (pod : Option ℚ)
    (S : DayState) :
    (placedSingleState mj p pl pod S).day_plan = S.day_plan ++ [pl] := rfl

theorem pss_pm (mj : MonthJob) (p : Prop') (pl : Placed) (pod : Option ℚ) (S : DayState) :
    (placedSingleState mj p pl pod S).pm_count =
      S.pm_count + (if is_pm_like mj.type then 1 else 0) := rfl

theorem pss_lh (mj : MonthJob) (p : Prop') (pl : Placed) (pod : Option ℚ) (S : DayState) :
    (placedSingleState mj p pl pod S).long_haul_active = S.long_haul_active := rfl

theorem pss_max (mj : MonthJob) (p : Prop') (pl : Placed) (pod : Option ℚ) (S : DayState) :
    (placedSingleState mj p pl pod S).max_pms_allowed = S.max_pms_allowed := rfl

theorem pss_override (mj : MonthJob) (p : Prop') (pl : Placed) (pod : Option ℚ)
    (S : DayState) :
    (placedSingleState mj p pl pod S).latest_return_override =
      S.latest_return_override := rfl

theorem lhActivate_spec (c : Ctx) (q : Prop') (S T : DayState)
    (h : lhActivate c q S = T) :
    T.remaining = S.remaining ∧ T.day_plan = S.day_plan ∧ T.pm_count = S.pm_count ∧
    ((T.long_haul_active = S.long_haul_active ∧
      T.latest_return_override = S.latest_return_override ∧
      T.max_pms_allowed = S.max_pms_allowed) ∨
     (S.long_haul_active = false ∧ T.long_haul_active = true ∧
      T.latest_return_override =
        some (c.tech.latest_return + LONG_HAUL_OT_BUFFER_MIN) ∧
      T.max_pms_allowed = LONG_HAUL_MAX_PMS)) := by
  subst h
  unfold lhActivate
  split
  next hc =>
    simp only [Bool.and_eq_true, Bool.not_eq_true'] at hc
    exact ⟨rfl, rfl, rfl, Or.inr ⟨hc.1, rfl, rfl, rfl⟩⟩
  next => exact ⟨rfl, rfl, rfl, Or.inl ⟨rfl, rfl, rfl⟩⟩

/-- Full specification of the anchor phase: the pool only shrinks; a
pass that places nothing changes at most the lunch flag; a successful
pass places exactly one listed candidate `it` that passed the PM-cap
check, appends only stops of `it` that meet the day's current
latest-return bound, and at most activates the long-haul policy. -/
theorem tryFirst_spec (c : Ctx) (cap : Int) :
    ∀ (L : List Item) (S : DayState) (r : Bool) (T : DayState),
      tryFirst c cap L S = (r, T) →
      (∀ x ∈ T.remaining, x ∈ S.remaining) ∧
      (r = false → OnlyLunch S T) ∧
      (r = true → ∃ it, it ∈ L ∧
        S.pm_count + pmNeed it ≤ cap ∧
        T.pm_count = S.pm_count + pmNeed it ∧
        (∃ ext, T.day_plan = S.day_plan ++ ext ∧
          ∀ pl ∈ ext, ∃ mj p, JobIn mj p it ∧ pl.job_id = mj.id ∧
            pl.property = p.name ∧
            pl.«end» + backDrive c p ≤
              S.latest_return_override.getD c.tech.latest_return) ∧
        ((T.long_haul_active = S.long_haul_active ∧
          T.latest_return_override = S.latest_return_override ∧
          T.max_pms_allowed = S.max_pms_allowed) ∨
         (S.long_haul_active = false ∧ T.long_haul_active = true ∧
          T.latest_return_override =
            some (c.tech.latest_return + LONG_HAUL_OT_BUFFER_MIN) ∧
          T.max_pms_allowed = LONG_HAUL_MAX_PMS))) := by
  intro L
  induction L with
  | nil =>
    intro S r T h
    simp only [tryFirst, Prod.mk.injEq] at h
    obtain ⟨hr, hT⟩ := h
    subst hT
    refine ⟨fun x hx => hx, fun _ => OL_refl S, fun ht => ?_⟩
    rw [← hr] at ht
    exact absurd ht (by simp)
  | cons it rest ih =>
    intro S r T h
    simp only [tryFirst] at h
    split at h
    next =>
      obtain ⟨h1, h2, h3⟩ := ih S r T h
      refine ⟨h1, h2, fun ht => ?_⟩
      obtain ⟨x, hx, hrest⟩ := h3 ht
      exact ⟨x, List.mem_cons_of_mem _ hx, hrest⟩
    next hg =>
      cases it with
      | bundle b =>
        dsimp only at h
        split at h
        next S1 heq =>
          have hfr : OnlyLunch S S1 := by
            have hp := place_bundle_frame _ _ _ _ _ _ _ _ _ heq
            exact ⟨hp.1, hp.2 rfl⟩
          obtain ⟨⟨e1, e2, e3, _, _, _, e7, _, _, e10, e11⟩, -⟩ := id hfr
          obtain ⟨h1, h2, h3⟩ := ih S1 r T h
          refine ⟨fun x hx => e1 ▸ h1 x hx, fun hf => OL_trans hfr (h2 hf), fun ht => ?_⟩
          have h3x := h3 ht
          rw [e2, e3, e7, e10, e11] at h3x
          obtain ⟨x, hx, hrest⟩ := h3x
          exact ⟨x, List.mem_cons_of_mem _ hx, hrest⟩
        next seq S1 heq =>
          injection h with hr hT
          subst hr
          have hfrp := place_bundle_frame _ _ _ _ _ _ _ _ _ heq
          obtain ⟨⟨e1, e2, e3, _, _, _, e7, _, _, e10, e11⟩, -⟩ := id hfrp
          have hstops := place_bundle_stops _ _ _ _ _ _ _ _ _ heq
          have hls := lhActivate_spec _ _ _ _ hT
          simp only [pbs_remaining, pbs_day_plan, pbs_pm, pbs_lh, pbs_max,
            pbs_override] at hls
          obtain ⟨g1, g2, g3, g4⟩ := hls
          refine ⟨?_, fun hf => absurd hf (by simp), fun _ => ?_⟩
          · intro x hx
            rw [g1, e1] at hx
            exact List.mem_of_mem_erase hx
          · refine ⟨Item.bundle b, List.mem_cons_self _ _, ?_, ?_, ?_, ?_⟩
            · exact le_of_not_lt (by simpa using hg)
            · rw [g3, e3]; rfl
            · refine ⟨seq, by rw [g2, e2], ?_⟩
              intro pl hpl
              obtain ⟨mp, hmp, hj1, hj2, hj3⟩ := hstops pl hpl
              exact ⟨mp.1, mp.2, by simpa [JobIn] using hmp, hj1, hj2, hj3⟩
            · rcases g4 with ⟨ga, gb, gc⟩ | ⟨ga, gb, gc, gd⟩
              · exact Or.inl ⟨ga.trans e7, gb.trans e11, gc.trans e10⟩
              · exact Or.inr ⟨e7 ▸ ga, gb, gc, gd⟩
      | single mj p =>
        dsimp only at h
        split at h
        next S1 heq =>
          have hfr : OnlyLunch S S1 := place_single_frame_eq _ _ _ _ _ _ _ _ _ _ heq
          obtain ⟨⟨e1, e2, e3, _, _, _, e7, _, _, e10, e11⟩, -⟩ := id hfr
          obtain ⟨h1, h2, h3⟩ := ih S1 r T h
          refine ⟨fun x hx => e1 ▸ h1 x hx, fun hf => OL_trans hfr (h2 hf), fun ht => ?_⟩
          have h3x := h3 ht
          rw [e2, e3, e7, e10, e11] at h3x
          obtain ⟨x, hx, hrest⟩ := h3x
          exact ⟨x, List.mem_cons_of_mem _ hx, hrest⟩
        next pl S1 heq =>
          injection h with hr hT
          subst hr
          have hfrp : OnlyLunch S S1 := place_single_frame_eq _ _ _ _ _ _ _ _ _ _ heq
          obtain ⟨⟨e1, e2, e3, _, _, _, e7, _, _, e10, e11⟩, -⟩ := id hfrp
          have hok := place_single_ok_eq _ _ _ _ _ _ _ _ _ _ heq
          have hls := lhActivate_spec _ _ _ _ hT
          simp only [pss_remaining, pss_day_plan, pss_pm, pss_lh, pss_max,
            pss_override] at hls
          obtain ⟨g1, g2, g3, g4⟩ := hls
          refine ⟨?_, fun hf => absurd hf (by simp), fun _ => ?_⟩
          · intro x hx
            rw [g1, e1] at hx
            exact List.mem_of_mem_erase hx
          · refine ⟨Item.single mj p, List.mem_cons_self _ _, ?_, ?_, ?_, ?_⟩
            · exact le_of_not_lt (by simpa using hg)
            · rw [g3, e3]; rfl
            · refine ⟨[pl], by rw [g2, e2], ?_⟩
              intro q hq
              rw [List.mem_singleton] at hq
              subst hq
              exact ⟨mj, p, ⟨rfl, rfl⟩, hok.1, hok.2.1, hok.2.2⟩
            · rcases g4 with ⟨ga, gb, gc⟩ | ⟨ga, gb, gc, gd⟩
              · exact Or.inl ⟨ga.trans e7, gb.trans e11, gc.trans e10⟩
              · exact Or.inr ⟨e7 ▸ ga, gb, gc, gd⟩

/-- Full specification of one backhaul candidate sweep: the pool only
shrinks, the long-haul fields are untouched, a fruitless sweep changes
at most the lunch flag, and a successful sweep places exactly one
listed candidate whose stops meet the day's current latest-return
bound. -/
theorem tryBack_spec (c : Ctx) :
    ∀ (L : List Cand) (S : DayState) (r : Bool) (T : DayState),
      tryBack c L S = (r, T) →
      (∀ x ∈ T.remaining, x ∈ S.remaining) ∧
      T.long_haul_active = S.long_haul_active ∧
      T.max_pms_allowed = S.max_pms_allowed ∧
      T.latest_return_override = S.latest_return_override ∧
      (r = false → OnlyLunch S T) ∧
      (r = true → ∃ cd, cd ∈ L ∧
        T.pm_count = S.pm_count + pmNeed cd.item ∧
        ∃ ext, T.day_plan = S.day_plan ++ ext ∧
          ∀ pl ∈ ext, ∃ mj p, JobIn mj p cd.item ∧ pl.job_id = mj.id ∧
            pl.property = p.name ∧
            pl.«end» + backDrive c p ≤
              S.latest_return_override.getD c.tech.latest_return) := by
  intro L
  induction L with
  | nil =>
    intro S r T h
    simp only [tryBack, Prod.mk.injEq] at h
    obtain ⟨hr, hT⟩ := h
    subst hT
    refine ⟨fun x hx => hx, rfl, rfl, rfl, fun _ => OL_refl S, fun ht => ?_⟩
    rw [← hr] at ht
    exact absurd ht (by simp)
  | cons cd rest ih =>
    intro S r T h
    simp only [tryBack] at h
    split at h
    next b hbi =>
      split at h
      next S1 heq =>
        have hfr : OnlyLunch S S1 := by
          have hp := place_bundle_frame _ _ _ _ _ _ _ _ _ heq
          exact ⟨hp.1, hp.2 rfl⟩
        obtain ⟨⟨e1, e2, e3, _, _, _, e7, _, _, e10, e11⟩, -⟩ := id hfr
        obtain ⟨h1, h2, h3, h4, h5, h6⟩ := ih S1 r T h
        refine ⟨fun x hx => e1 ▸ h1 x hx, h2.trans e7, h3.trans e10, h4.trans e11,
          fun hf => OL_trans hfr (h5 hf), fun ht => ?_⟩
        have h6x := h6 ht
        rw [e2, e3, e11] at h6x
        obtain ⟨x, hx, hrest⟩ := h6x
        exact ⟨x, List.mem_cons_of_mem _ hx, hrest⟩
      next seq S1 heq =>
        injection h with hr hT
        subst hr
        have hfrp := place_bundle_frame _ _ _ _ _ _ _ _ _ heq
        obtain ⟨⟨e1, e2, e3, _, _, _, e7, _, _, e10, e11⟩, -⟩ := id hfrp
        have hstops := place_bundle_stops _ _ _ _ _ _ _ _ _ heq
        subst hT
        simp only [pbs_remaining, pbs_day_plan, pbs_pm, pbs_lh, pbs_max, pbs_override]
        refine ⟨?_, e7, e10, e11, fun hf => absurd hf (by simp), fun _ => ?_⟩
        · intro x hx
          rw [e1] at hx
          exact List.mem_of_mem_erase hx
        · refine ⟨cd, List.mem_cons_self _ _, ?_, ?_⟩
          · rw [e3, hbi]; rfl
          · refine ⟨seq, by rw [e2], ?_⟩
            intro pl hpl
            obtain ⟨mp, hmp, hj1, hj2, hj3⟩ := hstops pl hpl
            exact ⟨mp.1, mp.2, by simpa [JobIn, hbi] using hmp, hj1, hj2, hj3⟩
    next mj p hbi =>
      split at h
      next S1 heq =>
        have hfr : OnlyLunch S S1 := place_single_frame_eq _ _ _ _ _ _ _ _ _ _ heq
        obtain ⟨⟨e1, e2, e3, _, _, _, e7, _, _, e10, e11⟩, -⟩ := id hfr
        obtain ⟨h1, h2, h3, h4, h5, h6⟩ := ih S1 r T h
        refine ⟨fun x hx => e1 ▸ h1 x hx, h2.trans e7, h3.trans e10, h4.trans e11,
          fun hf => OL_trans hfr (h5 hf), fun ht => ?_⟩
        have h6x := h6 ht
        rw [e2, e3, e11] at h6x
        obtain ⟨x, hx, hrest⟩ := h6x
        exact ⟨x, List.mem_cons_of_mem _ hx, hrest⟩
      next pl S1 heq =>
        injection h with hr hT
        subst hr
        have hfrp : OnlyLunch S S1 := place_single_frame_eq _ _ _ _ _ _ _ _ _ _ heq
        obtain ⟨⟨e1, e2, e3, _, _, _, e7, _, _, e10, e11⟩, -⟩ := id hfrp
        have hok := place_single_ok_eq _ _ _ _ _ _ _ _ _ _ heq
        subst hT
        simp only [pss_remaining, pss_day_plan, pss_pm, pss_lh, pss_max, pss_override]
        refine ⟨?_, e7, e10, e11, fun hf => absurd hf (by simp), fun _ => ?_⟩
        · intro x hx
          rw [e1] at hx
          exact List.mem_of_mem_erase hx
        · refine ⟨cd, List.mem_cons_self _ _, ?_, ?_⟩
          · rw [e3, hbi]; rfl
          · refine ⟨[pl], by rw [e2], ?_⟩
            intro q hq
            rw [List.mem_singleton] at hq
            subst hq
            exact ⟨mj, p, by simp [JobIn, hbi], hok.1, hok.2.1, hok.2.2⟩

/-- Every backhaul candidate comes from the remaining pool, is
day-eligible, and passed both PM checks (the effective cap, and — while
long-haul is active — the long-haul soft cap). -/
theorem backhaulCands_spec (c : Ctx) (d : Date) (cap : Int) (S : DayState) :
    ∀ cd ∈ backhaulCands c d cap S,
      cd.item ∈ S.remaining ∧ eligibleDay d cd.item = true ∧
      S.pm_count + pmNeed cd.item ≤ cap ∧
      (S.long_haul_active = true →
        S.pm_count + pmNeed cd.item ≤ S.max_pms_allowed) := by
  intro cd hcd
  unfold backhaulCands at hcd
  simp only [List.mem_append, List.mem_map] at hcd
  rcases hcd with ⟨t, ht, rfl⟩ | ⟨t, ht, rfl⟩
  all_goals
    rw [mem_sortStable] at ht
    have ht2 := (List.mem_filter.mp ht).1
    obtain ⟨x, hx, hfx⟩ := List.mem_filterMap.mp ht2
    by_cases h1 : (S.long_haul_active &&
        decide (S.pm_count + pmNeed x > S.max_pms_allowed)) = true
    · rw [if_pos h1] at hfx
      exact absurd hfx (by simp)
    · rw [if_neg h1] at hfx
      by_cases h2 : decide (S.pm_count + pmNeed x > cap) = true
      · rw [if_pos h2] at hfx
        exact absurd hfx (by simp)
      · rw [if_neg h2] at hfx
        injection hfx with hfx
        subst hfx
        have hpool : x ∈ S.remaining.filter (eligibleDay d) := by
          split at hx
          · split at hx
            · exact hx
            · exact (List.mem_filter.mp hx).1
          · exact hx
        obtain ⟨hxr, hxe⟩ := List.mem_filter.mp hpool
        simp only [Bool.and_eq_true, decide_eq_true_eq, not_and, not_lt] at h1 h2
        exact ⟨hxr, hxe, h2, fun hlh => h1 hlh⟩

/-- Full specification of the backhaul loop: the pool only shrinks, the
long-haul fields are untouched, the PM count either stands still or
lands under both caps, and every appended stop has well-formed,
day-eligible provenance and meets the loop-invariant latest-return
bound. -/
theorem backhaul_spec (c : Ctx) (jobs : List (MonthJob × Prop')) (d : Date) (cap : Int) :
    ∀ (fuel : Nat) (S T : DayState),
      backhaul c d cap fuel S = T →
      ItemsWF jobs S.remaining →
      (∀ x ∈ T.remaining, x ∈ S.remaining) ∧
      T.long_haul_active = S.long_haul_active ∧
      T.max_pms_allowed = S.max_pms_allowed ∧
      T.latest_return_override = S.latest_return_override ∧
      (T.pm_count = S.pm_count ∨
        (T.pm_count ≤ cap ∧
          (S.long_haul_active = true → T.pm_count ≤ S.max_pms_allowed))) ∧
      ∃ ext, T.day_plan = S.day_plan ++ ext ∧
        ∀ pl ∈ ext, PlacedFromW c jobs d
          (S.latest_return_override.getD c.tech.latest_return) pl := by
  intro fuel
  induction fuel with
  | zero =>
    intro S T h _
    simp only [backhaul] at h
    subst h
    exact ⟨fun x hx => hx, rfl, rfl, rfl, Or.inl rfl,
      ⟨[], (List.append_nil _).symm, by simp⟩⟩
  | succ fuel ih =>
    intro S T h hwf
    simp only [backhaul] at h
    split at h
    · subst h
      exact ⟨fun x hx => hx, rfl, rfl, rfl, Or.inl rfl,
        ⟨[], (List.append_nil _).symm, by simp⟩⟩
    · split at h
      next S1 heq =>
        subst h
        obtain ⟨a1, a2, a3, a4, a5, -⟩ := tryBack_spec c _ _ _ _ heq
        obtain ⟨⟨e1, e2, e3, -⟩, -⟩ := a5 rfl
        exact ⟨a1, a2, a3, a4, Or.inl e3,
          ⟨[], by rw [e2, List.append_nil], by simp⟩⟩
      next S1 heq =>
        obtain ⟨a1, a2, a3, a4, -, a6⟩ := tryBack_spec c _ _ _ _ heq
        obtain ⟨cd, hcd, hpm, ext1, hdp, hstops⟩ := a6 rfl
        obtain ⟨hmem, helig, hcap2, hmax⟩ := backhaulCands_spec c d cap S cd hcd
        obtain ⟨b1, b2, b3, b4, b5, ext2, bdp, bstops⟩ :=
          ih S1 T h (ItemsWF_sub hwf a1)
        refine ⟨fun x hx => a1 x (b1 x hx), b2.trans a2, b3.trans a3, b4.trans a4,
          ?_, ?_⟩
        · right
          constructor
          · rcases b5 with hb | hb
            · rw [hb, hpm]; exact hcap2
            · exact hb.1
          · intro hlh
            rcases b5 with hb | hb
            · rw [hb, hpm]; exact hmax hlh
            · have hb2 := hb.2 (a2.trans hlh)
              rw [a3] at hb2
              exact hb2
        · refine ⟨ext1 ++ ext2, by rw [bdp, hdp, List.append_assoc], ?_⟩
          intro pl hpl
          rcases List.mem_append.mp hpl with hp1 | hp2
          · obtain ⟨mj, p, hji, q1, q2, q3⟩ := hstops pl hp1
            exact ⟨cd.item, hwf _ hmem, helig, mj, p, hji, q1, q2, q3⟩
          · have hb := bstops pl hp2
            rw [a4] at hb
            exact hb

theorem capFor_nonneg (cbd : List (Date × Int)) (bc : Int) (d : Date)
    (hb : 0 ≤ bc) (ho : ∀ e ∈ cbd, 0 ≤ e.2) : 0 ≤ capFor cbd bc d := by
  unfold capFor
  cases hf : cbd.find? (fun e => e.1 == d) with
  | none => simpa using hb
  | some e => simpa using ho e (List.mem_of_find?_eq_some hf)

/-- Full specification of one schedulable day: the recorded entry
satisfies `DayGood` (stops placed before long-haul activation meet the
base latest-return bound, later ones the extended bound), the pool only
shrinks, and the day's PM count respects the effective cap. -/
theorem runDay_spec (c : Ctx) (jobs : List (MonthJob × Prop')) (d : Date)
    (cap : Int) (rem : List Item) (o : DayOut)
    (h : runDay c d cap rem = o) (hwf : ItemsWF jobs rem) :
    DayGood c jobs d o ∧ (∀ x ∈ o.remaining, x ∈ rem) ∧
      (o.pm_count = 0 ∨ o.pm_count ≤ cap) := by
  unfold runDay at h
  dsimp only at h
  split at h
  · subst h
    refine ⟨?_, fun x hx => hx, Or.inl rfl⟩
    intro plan hplan
    exact absurd hplan (by simp)
  · split at h
    · rename_i heq
      subst h
      refine ⟨?_, fun x hx => hx, Or.inl rfl⟩
      intro plan hplan
      simp only [Option.some.injEq] at hplan
      subst hplan
      refine ⟨[dayNote "No eligible job fit constraints for first stop."], [],
        by simp, ?_, by simp⟩
      intro pl hpl
      rw [List.mem_singleton] at hpl
      subst hpl
      exact Or.inl rfl
    · rename_i S1 heq
      obtain ⟨a1, -, a3⟩ := tryFirst_spec c cap _ _ _ _ heq
      obtain ⟨it, hit, hguard, hpm1, ⟨ext1, hdp, hstops⟩, hlh⟩ := a3 rfl
      obtain ⟨hitrem, hitelig⟩ :=
        List.mem_filter.mp (mem_sortStable.mp hit)
      simp only [initDayState, Option.getD_none, List.nil_append]
        at a1 hguard hpm1 hdp hstops hlh
      obtain ⟨b1, b2, b3, b4, b5, ext2, bdp, bstops⟩ :=
        backhaul_spec c jobs d cap (S1.remaining.length + 1) S1 _ rfl
          (ItemsWF_sub hwf a1)
      subst h
      refine ⟨?_, fun x hx => a1 x (b1 x hx), ?_⟩
      · intro plan hplan
        dsimp only at hplan
        split at hplan
        · exact absurd hplan (by simp)
        · simp only [Option.some.injEq] at hplan
          subst hplan
          rcases hlh with ⟨la, lb, lc⟩ | ⟨la, lb, lc, ld⟩
          · refine ⟨ext1 ++ ext2, [], by rw [bdp, hdp, List.append_nil], ?_, by simp⟩
            intro pl hpl
            rcases List.mem_append.mp hpl with hp1 | hp2
            · obtain ⟨mj, p, hji, q1, q2, q3⟩ := hstops pl hp1
              exact Or.inr ⟨it, hwf _ hitrem, hitelig, mj, p, hji, q1, q2, q3⟩
            · have hb := bstops pl hp2
              rw [lb] at hb
              simp only [Option.getD_none] at hb
              exact Or.inr hb
          · refine ⟨ext1, ext2, by rw [bdp, hdp], ?_, ?_⟩
            · intro pl hp1
              obtain ⟨mj, p, hji, q1, q2, q3⟩ := hstops pl hp1
              exact Or.inr ⟨it, hwf _ hitrem, hitelig, mj, p, hji, q1, q2, q3⟩
            · intro pl hp2
              have hb := bstops pl hp2
              rw [lc] at hb
              simp only [Option.getD_some] at hb
              have hact : (backhaul c d cap (S1.remaining.length + 1) S1).long_haul_active
                  = true := b2.trans lb
              dsimp only
              rw [hact]
              simpa using Or.inr hb
      · dsimp only
        rcases b5 with hb | hb
        · right
          rw [hb, hpm1]
          exact hguard
        · exact Or.inr hb.1

theorem month_days_nodup (yy mm : Nat) : (month_days yy mm).Nodup := by
  unfold month_days
  refine List.Nodup.map ?_ (List.nodup_range _)
  intro a b hab
  simpa using congrArg Date.day hab

theorem key_unique {l : List (Date × DayOut)} (hn : (l.map Prod.fst).Nodup)
    {d : Date} {o o' : DayOut} (h1 : (d, o) ∈ l) (h2 : (d, o') ∈ l) : o = o' := by
  induction l with
  | nil => cases h1
  | cons e t ih =>
    simp only [List.map_cons, List.nodup_cons] at hn
    rcases List.mem_cons.mp h1 with he1 | h1t
    · rcases List.mem_cons.mp h2 with he2 | h2t
      · rw [← he2] at he1
        exact ((Prod.mk.injEq _ _ _ _).mp he1).2
      · rw [← he1] at hn
        exact absurd (List.mem_map_of_mem Prod.fst h2t) (by simpa using hn.1)
    · rcases List.mem_cons.mp h2 with he2 | h2t
      · rw [← he2] at hn
        exact absurd (List.mem_map_of_mem Prod.fst h1t) (by simpa using hn.1)
      · exact ih hn.2 h1t h2t

/-- Fold invariant of the month loop: every record is either inherited
from the accumulator or is a processed day of the remaining date list
satisfying `DayGood` and the effective PM cap; the pool stays
well-formed; and the recorded dates extend the accumulator's keys by a
sublist of the processed dates. -/
theorem monthFold_spec (c : Ctx) (jobs : List (MonthJob × Prop'))
    (holidays held_open : List Date) (cbd : List (Date × Int)) (bc : Int)
    (keepN : Option Int) :
    ∀ (ds : List Date) (acc : List (Date × DayOut)) (rem : List Item),
      ItemsWF jobs rem →
      (∀ e ∈ (ds.foldl (monthStep c holidays held_open cbd bc keepN) (acc, rem)).1,
        e ∈ acc ∨ (e.1 ∈ ds ∧ DayGood c jobs e.1 e.2 ∧
          (e.2.pm_count = 0 ∨ e.2.pm_count ≤ capFor cbd bc e.1))) ∧
      ItemsWF jobs (ds.foldl (monthStep c holidays held_open cbd bc keepN) (acc, rem)).2 ∧
      ((ds.foldl (monthStep c holidays held_open cbd bc keepN) (acc, rem)).1.map
        Prod.fst).Sublist (acc.map Prod.fst ++ ds) := by
  intro ds
  induction ds with
  | nil =>
    intro acc rem hwf
    refine ⟨fun e he => Or.inl he, hwf, ?_⟩
    simp
  | cons d ds ih =>
    intro acc rem hwf
    rw [List.foldl_cons]
    have hstep : ∀ (acc' : List (Date × DayOut)) (rem' : List Item),
        ItemsWF jobs rem' →
        (∀ e ∈ acc', e ∈ acc ∨ (e.1 = d ∧ DayGood c jobs e.1 e.2 ∧
          (e.2.pm_count = 0 ∨ e.2.pm_count ≤ capFor cbd bc e.1))) →
        (acc'.map Prod.fst).Sublist (acc.map Prod.fst ++ [d]) →
        (∀ e ∈ (ds.foldl (monthStep c holidays held_open cbd bc keepN) (acc', rem')).1,
          e ∈ acc ∨ (e.1 ∈ d :: ds ∧ DayGood c jobs e.1 e.2 ∧
            (e.2.pm_count = 0 ∨ e.2.pm_count ≤ capFor cbd bc e.1))) ∧
        ItemsWF jobs (ds.foldl (monthStep c holidays held_open cbd bc keepN) (acc', rem')).2 ∧
        (((ds.foldl (monthStep c holidays held_open cbd bc keepN) (acc', rem')).1.map
          Prod.fst).Sublist (acc.map Prod.fst ++ d :: ds)) := by
      intro acc' rem' hwf' hmem hsub
      obtain ⟨i1, i2, i3⟩ := ih acc' rem' hwf'
      refine ⟨?_, i2, ?_⟩
      · intro e he
        rcases i1 e he with hea | ⟨hed, hrest⟩
        · rcases hmem e hea with h | ⟨h1, h2⟩
          · exact Or.inl h
          · exact Or.inr ⟨by rw [h1]; exact List.mem_cons_self _ _, h2⟩
        · exact Or.inr ⟨List.mem_cons_of_mem _ hed, hrest⟩
      · refine i3.trans ?_
        have h2 : (acc.map Prod.fst ++ [d]) ++ ds = acc.map Prod.fst ++ d :: ds := by
          rw [List.append_assoc, List.singleton_append]
        rw [← h2]
        exact hsub.append_right ds
    unfold monthStep
    dsimp only
    split
    · -- not a workday: nothing recorded
      obtain ⟨i1, i2, i3⟩ := ih acc rem hwf
      refine ⟨?_, i2, ?_⟩
      · intro e he
        rcases i1 e he with h | ⟨h1, h2⟩
        · exact Or.inl h
        · exact Or.inr ⟨List.mem_cons_of_mem _ h1, h2⟩
      · refine i3.trans ?_
        refine List.Sublist.append_left ?_ _
        exact List.sublist_cons_self _ _
    · split
      · -- holiday note
        refine hstep _ _ hwf ?_ ?_
        · intro e he
          rcases List.mem_append.mp he with h | h
          · exact Or.inl h
          · rw [List.mem_singleton] at h
            subst h
            refine Or.inr ⟨rfl, ?_, Or.inl rfl⟩
            intro plan hplan
            simp only [Option.some.injEq] at hplan
            subst hplan
            refine ⟨[dayNote "Holiday"], [], by simp, ?_, by simp⟩
            intro pl hpl
            rw [List.mem_singleton] at hpl
            subst hpl
            exact Or.inl rfl
        · rw [List.map_append]
          exact List.Sublist.refl _
      · split
        · -- held-open note
          refine hstep _ _ hwf ?_ ?_
          · intro e he
            rcases List.mem_append.mp he with h | h
            · exact Or.inl h
            · rw [List.mem_singleton] at h
              subst h
              refine Or.inr ⟨rfl, ?_, Or.inl rfl⟩
              intro plan hplan
              simp only [Option.some.injEq] at hplan
              subst hplan
              refine ⟨_, [], by rw [List.append_nil], ?_, by simp⟩
              intro pl hpl
              rw [List.mem_singleton] at hpl
              subst hpl
              exact Or.inl rfl
          · rw [List.map_append]
            exact List.Sublist.refl _
        · -- schedulable day: run the placement engine
          obtain ⟨hgood, hrem, hpm⟩ := runDay_spec c jobs d (capFor cbd bc d) rem
            (runDay c d (capFor cbd bc d) rem) rfl hwf
          refine hstep _ _ (ItemsWF_sub hwf hrem) ?_ ?_
          · intro e he
            rcases List.mem_append.mp he with h | h
            · exact Or.inl h
            · rw [List.mem_singleton] at h
              subst h
              exact Or.inr ⟨rfl, hgood, hpm⟩
          · rw [List.map_append]
            exact List.Sublist.refl _

/-- The month loop from the initial pool: every recorded day satisfies
`DayGood` and the effective PM cap, and the recorded dates are distinct. -/
theorem scheduleCore_spec (c : Ctx) (jobs : List (MonthJob × Prop'))
    (holidays held_open : List Date) (cbd : List (Date × Int)) (bc : Int)
    (keepN : Option Int) (yy mm : Nat) (mixed : List Item)
    (hwf : ItemsWF jobs mixed) :
    (∀ e ∈ scheduleCore c holidays held_open cbd bc keepN yy mm mixed,
      DayGood c jobs e.1 e.2 ∧
        (e.2.pm_count = 0 ∨ e.2.pm_count ≤ capFor cbd bc e.1)) ∧
    ((scheduleCore c holidays held_open cbd bc keepN yy mm mixed).map Prod.fst).Nodup := by
  obtain ⟨i1, -, i3⟩ := monthFold_spec c jobs holidays held_open cbd bc keepN
    (month_days yy mm) [] mixed hwf
  constructor
  · intro e he
    rcases i1 e he with h | ⟨-, h2⟩
    · cases h
    · exact h2
  · refine List.Nodup.sublist ?_ (month_days_nodup yy mm)
    simpa using i3

/-- Successful `scheduleDays` runs decompose into the fetched office and
technician, the bundled pool, the parsed month, and the month loop. -/
theorem scheduleDays_ok (hav : HavFn) (offices : List Office) (techs : List Tech)
    (jobsAll : List (MonthJob × Prop')) (month region tech_name : String)
    (pmc : Option Int) (holidays : List Date) (keep : Option Int)
    (ovs : List ((Date ⊕ String) × Int)) (l : List (Date × DayOut))
    (h : scheduleDays hav offices techs jobsAll month region tech_name pmc
      holidays keep ovs = .ok l) :
    ∃ office tech mixed ym,
      offices.find? (fun o => o.region == region) = some office ∧
      techs.find? (fun t => t.name == tech_name) = some tech ∧
      build_bundles hav (jobsAll.filter (fun mp => job_assigned_to mp.1 tech_name))
        office = .ok mixed ∧
      parseMonth month = .ok ym ∧
      l = scheduleCore ⟨hav, office, tech⟩ holidays
            (heldOpenOf keep ym.1 ym.2 holidays) (normOverrides ovs)
            (pmc.getD tech.max_pms_per_day) keep ym.1 ym.2 mixed := by
  unfold scheduleDays at h
  dsimp only at h
  cases hoff : offices.find? (fun o => o.region == region) with
  | none =>
    rw [hoff] at h
    exact Except.noConfusion h
  | some office =>
    rw [hoff] at h
    simp only [except_bind_ok] at h
    cases htech : techs.find? (fun t => t.name == tech_name) with
    | none =>
      rw [htech] at h
      exact Except.noConfusion h
    | some tech =>
      rw [htech] at h
      simp only [except_bind_ok] at h
      cases hbb : build_bundles hav
          (jobsAll.filter (fun mp => job_assigned_to mp.1 tech_name)) office with
      | error s =>
        rw [hbb] at h
        exact Except.noConfusion h
      | ok mixed =>
        rw [hbb] at h
        simp only [except_bind_ok] at h
        cases hym : parseMonth month with
        | error s =>
          rw [hym] at h
          exact Except.noConfusion h
        | ok ym =>
          rw [hym] at h
          simp only [except_bind_ok] at h
          refine ⟨office, tech, mixed, ym, rfl, rfl, hbb, rfl, ?_⟩
          have h2 : (Except.ok (scheduleCore ⟨hav, office, tech⟩ holidays
              (heldOpenOf keep ym.1 ym.2 holidays) (normOverrides ovs)
              (pmc.getD tech.max_pms_per_day) keep ym.1 ym.2 mixed) :
              Except String (List (Date × DayOut))) = Except.ok l := h
          injection h2 with h2
          exact h2.symm

theorem foldlM_except_inv (P : α → Prop) (f : α → β → Except String α)
    (hstep : ∀ a b a', P a → f a b = .ok a' → P a') :
    ∀ (l : List β) (a0 a1 : α), P a0 → l.foldlM f a0 = .ok a1 → P a1 := by
  intro l
  induction l with
  | nil =>
    intro a0 a1 h0 h
    rw [List.foldlM_nil] at h
    injection h with h
    subst h
    exact h0
  | cons b t ih =>
    intro a0 a1 h0 h
    rw [List.foldlM_cons] at h
    cases hf : f a0 b with
    | error s =>
      rw [hf] at h
      exact Except.noConfusion h
    | ok a2 =>
      rw [hf, except_bind_ok] at h
      exact ih a2 a1 (hstep a0 b a2 h0 hf) h

/-- Everything `emitComponent` emits is well-formed over any job list
containing the component's members. -/
theorem emitComponent_WF (hav : HavFn) (office : Office)
    (ms : List (MonthJob × Prop')) (jobs : List (MonthJob × Prop'))
    (hms : ∀ mp ∈ ms, mp ∈ jobs) (emitted : List Item)
    (h : emitComponent hav office ms = .ok emitted) :
    ∀ it ∈ emitted, ItemWF jobs it := by
  unfold emitComponent at h
  cases hcb : can_bundle ms with
  | error s =>
    rw [hcb] at h
    exact Except.noConfusion h
  | ok ob =>
    rw [hcb, except_bind_ok] at h
    cases ob with
    | none =>
      injection h with h
      subst h
      intro it hit
      obtain ⟨mp, hmp, rfl⟩ := List.mem_map.mp hit
      exact hms mp hmp
    | some b =>
      have hcs := can_bundle_ok_some hcb
      obtain ⟨w1, w2, w3, w4, w5, -⟩ := hcs
      have hbwf : ItemWF jobs (Item.bundle b) := by
        refine ⟨by rw [w1]; exact w2, ?_, by rw [w1]; exact w3, ?_, ?_⟩
        · intro mp hmp
          rw [w1] at hmp
          exact hms mp hmp
        · intro hall
          refine w4 ?_
          intro mp hmp
          exact hall mp (by rw [w1]; exact hmp)
        · intro mp hmp
          rw [w1] at hmp
          exact w5 mp hmp
      dsimp only at h
      split at h
      · injection h with h
        subst h
        intro it hit
        rw [List.mem_singleton] at hit
        subst hit
        exact hbwf
      · injection h with h
        subst h
        intro it hit
        rw [List.mem_singleton] at hit
        subst hit
        exact hbwf

/-- One `build_bundles` loop step preserves well-formedness of the
emitted list. -/
theorem bbStep_WF (hav : HavFn) (office : Office)
    (items jobs : List (MonthJob × Prop')) (n : Nat)
    (hsub : ∀ mp ∈ items, mp ∈ jobs) :
    ∀ (st : List Item × Array Bool) (i : Nat) (st' : List Item × Array Bool),
      (∀ it ∈ st.1, ItemWF jobs it) → bbStep hav office items n st i = .ok st' →
      ∀ it ∈ st'.1, ItemWF jobs it := by
  intro st i st' hinv h
  obtain ⟨out, seen⟩ := st
  unfold bbStep at h
  dsimp only at h
  split at h
  · injection h with h
    subst h
    exact hinv
  · split at h
    next =>
      injection h with h
      subst h
      exact hinv
    next mj p hget =>
      have hmem : (mj, p) ∈ jobs := hsub _ (List.get?_mem hget)
      split at h
      · injection h with h
        subst h
        intro it hit
        rcases List.mem_append.mp hit with h1 | h1
        · exact hinv it h1
        · rw [List.mem_singleton] at h1
          subst h1
          exact hmem
      · generalize bfsLoop (neighborsOf hav items n) (n + 1) [i] [i] (seen.setD i true)
          = bl at h
        split at h
        · injection h with h
          subst h
          intro it hit
          rcases List.mem_append.mp hit with h1 | h1
          · exact hinv it h1
          · rw [List.mem_singleton] at h1
            subst h1
            exact hmem
        · cases hec : emitComponent hav office (bl.1.filterMap (fun k => items.get? k)) with
          | error s =>
            rw [hec] at h
            exact Except.noConfusion h
          | ok emitted =>
            rw [hec, except_bind_ok] at h
            injection h with h
            subst h
            intro it hit
            rcases List.mem_append.mp hit with h1 | h1
            · exact hinv it h1
            · refine emitComponent_WF hav office _ jobs ?_ emitted hec it h1
              intro mp hmp
              obtain ⟨k, -, hk⟩ := List.mem_filterMap.mp hmp
              exact hsub mp (List.get?_mem hk)

/-- The bundled pool `build_bundles` returns is well-formed over the
job list it was built from. -/
theorem build_bundles_WF (hav : HavFn) (jobs : List (MonthJob × Prop'))
    (office : Office) (mixed : List Item)
    (h : build_bundles hav jobs office = .ok mixed) : ItemsWF jobs mixed := by
  unfold build_bundles at h
  dsimp only at h
  split at h
  · injection h with h
    subst h
    intro it hit
    obtain ⟨mp, hmp, rfl⟩ := List.mem_map.mp hit
    exact hmp
  · cases hf : (List.range jobs.length).foldlM (bbStep hav office jobs jobs.length)
        ([], Array.mkArray jobs.length false) with
    | error s =>
      rw [hf] at h
      exact Except.noConfusion h
    | ok st =>
      have hinv := foldlM_except_inv (fun st => ∀ it ∈ st.1, ItemWF jobs it)
        (bbStep hav office jobs jobs.length)
        (fun a b a' ha hab => bbStep_WF hav office jobs jobs jobs.length
          (fun mp hmp => hmp) a b a' ha hab)
        (List.range jobs.length) ([], Array.mkArray jobs.length false) st
        (fun it hit => absurd hit (List.not_mem_nil it)) hf
      rw [hf, except_bind_ok] at h
      obtain ⟨out, seen⟩ := st
      dsimp only at h
      injection h with h
      subst h
      intro it hit
      exact hinv it (mem_sortStable.mp hit)

theorem JobIn_mem {jobs : List (MonthJob × Prop')} {it : Item} {mj : MonthJob}
    {p : Prop'} (hwf : ItemWF jobs it) (hj : JobIn mj p it) : (mj, p) ∈ jobs := by
  cases it with
  | single mj' p' =>
    have hj' : mj = mj' ∧ p = p' := hj
    rw [hj'.1, hj'.2]
    exact hwf
  | bundle b => exact hwf.2.1 _ hj

theorem parseYMD_empty : parseYMD "" = none := by decide

theorem parseYMD_ne_empty {s : String} {fd : Date} (hp : parseYMD s = some fd) :
    s ≠ "" := by
  intro hcon
  rw [hcon, parseYMD_empty] at hp
  exact Option.noConfusion hp

theorem truthyS_some {s : String} (hne : s ≠ "") : truthyS (some s) = true := by
  simp only [truthyS, ne_eq, decide_eq_true_eq]
  exact hne

theorem eligibleDay_must {d : Date} {it : Item} (h : eligibleDay d it = true)
    (hm : itemMustLT it ≠ 0) : is_last_thursday d = true := by
  cases it with
  | bundle b =>
    simp only [eligibleDay, Bool.and_eq_true] at h
    have h2 := h.1.2
    rw [Bool.or_eq_true] at h2
    simp only [itemMustLT] at hm
    rcases h2 with h3 | h3
    · exact absurd (by simpa using h3) hm
    · exact h3
  | single mj p =>
    simp only [eligibleDay, Bool.and_eq_true] at h
    have h2 := h.1.2
    rw [Bool.or_eq_true] at h2
    simp only [itemMustLT] at hm
    rcases h2 with h3 | h3
    · exact absurd (by simpa using h3) hm
    · exact h3

theorem eligibleDay_fixed_single {d : Date} {mj : MonthJob} {p : Prop'}
    (h : eligibleDay d (Item.single mj p) = true) {s : String} {fd : Date}
    (hs : mj.fixed_date = some s) (hp : parseYMD s = some fd) : d = fd := by
  have ht := truthyS_some (parseYMD_ne_empty hp)
  simp only [eligibleDay, Bool.and_eq_true] at h
  have h1 := h.1.1
  rw [hs] at h1
  rw [if_pos ht] at h1
  simp only [Option.getD_some] at h1
  rw [hp] at h1
  simp only [beq_iff_eq] at h1
  exact h1.symm

theorem eligibleDay_fixed_bundle {jobs : List (MonthJob × Prop')} {d : Date}
    {b : Bundle} {mj : MonthJob} {p : Prop'}
    (hwf : ItemWF jobs (Item.bundle b)) (hmem : (mj, p) ∈ b.members)
    (h : eligibleDay d (Item.bundle b) = true) {s : String} {fd : Date}
    (hs : mj.fixed_date = some s) (htrim : pyTrim s = s)
    (hp : parseYMD s = some fd) : d = fd := by
  have hne := parseYMD_ne_empty hp
  have hbf : b.fixed_date = some s := by
    have h5 := hwf.2.2.2.2 (mj, p) hmem
      (by simp only [hs, Option.getD_some, htrim]; exact hne)
    simp only [hs, Option.getD_some, htrim] at h5
    exact h5
  have ht := truthyS_some hne
  simp only [eligibleDay, Bool.and_eq_true] at h
  have h1 := h.1.1
  rw [hbf] at h1
  rw [if_pos ht] at h1
  simp only [Option.getD_some] at h1
  rw [hp] at h1
  simp only [beq_iff_eq] at h1
  exact h1.symm

/-- PM-count shape of the backhaul loop, without any pool
well-formedness assumption: the long-haul fields are untouched and the
PM count either stands still or lands under both caps. -/
theorem backhaul_pm (c : Ctx) (d : Date) (cap : Int) :
    ∀ (fuel : Nat) (S : DayState),
      (backhaul c d cap fuel S).long_haul_active = S.long_haul_active ∧
      (backhaul c d cap fuel S).max_pms_allowed = S.max_pms_allowed ∧
      ((backhaul c d cap fuel S).pm_count = S.pm_count ∨
        ((backhaul c d cap fuel S).pm_count ≤ cap ∧
          (S.long_haul_active = true →
            (backhaul c d cap fuel S).pm_count ≤ S.max_pms_allowed))) := by
  intro fuel
  induction fuel with
  | zero =>
    intro S
    exact ⟨rfl, rfl, Or.inl rfl⟩
  | succ fuel ih =>
    intro S
    simp only [backhaul]
    split
    · exact ⟨rfl, rfl, Or.inl rfl⟩
    · cases htb : tryBack c (backhaulCands c d cap S) S with
      | mk r S1 =>
        obtain ⟨-, a2, a3, -, a5, a6⟩ := tryBack_spec c _ _ _ _ htb
        cases r with
        | false =>
          obtain ⟨⟨-, -, e3, -⟩, -⟩ := a5 rfl
          exact ⟨a2, a3, Or.inl e3⟩
        | true =>
          obtain ⟨b1, b2, b3⟩ := ih S1
          obtain ⟨cd, hcd, hpm, -⟩ := a6 rfl
          obtain ⟨-, -, hcap2, hmax⟩ := backhaulCands_spec c d cap S cd hcd
          refine ⟨b1.trans a2, b2.trans a3, Or.inr ⟨?_, ?_⟩⟩
          · rcases b3 with hb | hb
            · rw [hb, hpm]; exact hcap2
            · exact hb.1
          · intro hact
            rcases b3 with hb | hb
            · rw [hb, hpm]; exact hmax hact
            · have hb2 := hb.2 (a2.trans hact)
              rw [a3] at hb2
              exact hb2

theorem normOverrides_nonneg (ovs : List ((Date ⊕ String) × Int))
    (hovs : ∀ kv ∈ ovs, 0 ≤ kv.2) : ∀ e ∈ normOverrides ovs, 0 ≤ e.2 := by
  unfold normOverrides
  suffices hgen : ∀ (t : List ((Date ⊕ String) × Int)) (acc : List (Date × Int)),
      (∀ e ∈ acc, 0 ≤ e.2) → (∀ kv ∈ t, 0 ≤ kv.2) →
      ∀ e ∈ t.foldl
        (fun acc kv =>
          match kv.1 with
          | .inl dt => (acc.filter (fun e => e.1 ≠ dt)) ++ [(dt, kv.2)]
          | .inr s =>
            match parseYMD s with
            | some dt => (acc.filter (fun e => e.1 ≠ dt)) ++ [(dt, kv.2)]
            | none => acc)
        acc, 0 ≤ e.2 by
    exact hgen ovs [] (fun e he => absurd he (List.not_mem_nil e)) hovs
  intro t
  induction t with
  | nil =>
    intro acc hacc _ e he
    exact hacc e he
  | cons kv t ih =>
    intro acc hacc hkv e he
    rw [List.foldl_cons] at he
    refine ih _ ?_ (fun x hx => hkv x (List.mem_cons_of_mem _ hx)) e he
    intro x hx
    have hk2 : 0 ≤ kv.2 := hkv kv (List.mem_cons_self _ _)
    cases hk1 : kv.1 with
    | inl dt =>
      rw [hk1] at hx
      dsimp only at hx
      rcases List.mem_append.mp hx with h1 | h1
      · exact hacc x (List.mem_filter.mp h1).1
      · rw [List.mem_singleton] at h1
        subst h1
        exact hk2
    | inr s =>
      rw [hk1] at hx
      dsimp only at hx
      cases hp : parseYMD s with
      | none =>
        rw [hp] at hx
        exact hacc x hx
      | some dt =>
        rw [hp] at hx
        dsimp only at hx
        rcases List.mem_append.mp hx with h1 | h1
        · exact hacc x (List.mem_filter.mp h1).1
        · rw [List.mem_singleton] at h1
          subst h1
          exact hk2

/-- Provenance of any non-synthetic stop of a recorded day: it comes
from a well-formed, day-eligible pool element visiting the stop's job. -/
theorem schedule_stop_provenance (hav : HavFn) (offices : List Office)
    (techs : List Tech) (jobsAll : List (MonthJob × Prop'))
    (month region tech_name : String) (pmc : Option Int) (holidays : List Date)
    (keep : Option Int) (ovs : List ((Date ⊕ String) × Int))
    (l : List (Date × DayOut)) (d : Date) (o : DayOut) (plan : List Placed)
    (pl : Placed)
    (h : scheduleDays hav offices techs jobsAll month region tech_name pmc
      holidays keep ovs = .ok l)
    (hd : (d, o) ∈ l) (hplan : o.entry = some plan) (hpl : pl ∈ plan)
    (hreal : pl.job_id ≠ -1) :
    ∃ it, ItemWF (jobsAll.filter (fun mp => job_assigned_to mp.1 tech_name)) it ∧
      eligibleDay d it = true ∧
      ∃ mj p, JobIn mj p it ∧ pl.job_id = mj.id := by
  obtain ⟨office, tech, mixed, ym, hoff, htech, hbb, hym, hl⟩ :=
    scheduleDays_ok hav offices techs jobsAll month region tech_name pmc
      holidays keep ovs l h
  have hwf := build_bundles_WF hav _ office mixed hbb
  obtain ⟨i1, -⟩ := scheduleCore_spec ⟨hav, office, tech⟩
    (jobsAll.filter (fun mp => job_assigned_to mp.1 tech_name)) holidays
    (heldOpenOf keep ym.1 ym.2 holidays) (normOverrides ovs)
    (pmc.getD tech.max_pms_per_day) keep ym.1 ym.2 mixed hwf
  subst hl
  obtain ⟨hgood, -⟩ := i1 (d, o) hd
  obtain ⟨pre, post, hsplit, hpre, hpost⟩ := hgood plan hplan
  subst hsplit
  rcases List.mem_append.mp hpl with hp | hp
  · rcases hpre pl hp with hid | ⟨it, hwfi, helig, mj, p, hji, hj1, -⟩
    · exact absurd hid hreal
    · exact ⟨it, hwfi, helig, mj, p, hji, hj1⟩
  · rcases hpost pl hp with hid | ⟨it, hwfi, helig, mj, p, hji, hj1, -⟩
    · exact absurd hid hreal
    · exact ⟨it, hwfi, helig, mj, p, hji, hj1⟩

/-- Claim C1.  Every recorded day of a successful `schedule_month` run
(whose by-day mapping is `projectDays` of the recorded days) splits
into the stops placed before long-haul activation — whose end time plus
the drive back to the office is within the technician's latest-return
bound — followed by the stops placed after activation, which meet that
bound extended by the 90-minute long-haul overtime buffer; synthetic
notes carry job id -1, and every real stop visits a job of the run's
job list. -/
theorem C1_latest_return_bound (hav : HavFn) (offices : List Office)
    (techs : List Tech) (jobsAll : List (MonthJob × Prop'))
    (month region tech_name : String) (pmc : Option Int) (holidays : List Date)
    (keep : Option Int) (ovs : List ((Date ⊕ String) × Int))
    (l : List (Date × DayOut)) (d : Date) (o : DayOut) (plan : List Placed)
    (h : scheduleDays hav offices techs jobsAll month region tech_name pmc
      holidays keep ovs = .ok l)
    (hd : (d, o) ∈ l) (hplan : o.entry = some plan) :
    schedule_month hav offices techs jobsAll month region tech_name pmc
      holidays keep ovs = .ok (projectDays l) ∧
    ∃ office tech,
      offices.find? (fun o' => o'.region == region) = some office ∧
      techs.find? (fun t => t.name == tech_name) = some tech ∧
      ∃ pre post, plan = pre ++ post ∧
        (∀ q ∈ pre, q.job_id = -1 ∨
          ∃ mj p, (mj, p) ∈ jobsAll ∧ q.job_id = mj.id ∧ q.property = p.name ∧
            q.«end» + backDrive ⟨hav, office, tech⟩ p ≤ tech.latest_return) ∧
        (∀ q ∈ post, q.job_id = -1 ∨
          ∃ mj p, (mj, p) ∈ jobsAll ∧ q.job_id = mj.id ∧ q.property = p.name ∧
            q.«end» + backDrive ⟨hav, office, tech⟩ p ≤ tech.latest_return +
              (if o.long_haul_active then LONG_HAUL_OT_BUFFER_MIN else 0)) := by
  obtain ⟨office, tech, mixed, ym, hoff, htech, hbb, hym, hl⟩ :=
    scheduleDays_ok hav offices techs jobsAll month region tech_name pmc
      holidays keep ovs l h
  constructor
  · unfold schedule_month
    rw [h]
    rfl
  refine ⟨office, tech, hoff, htech, ?_⟩
  have hwf := build_bundles_WF hav _ office mixed hbb
  obtain ⟨i1, -⟩ := scheduleCore_spec ⟨hav, office, tech⟩
    (jobsAll.filter (fun mp => job_assigned_to mp.1 tech_name)) holidays
    (heldOpenOf keep ym.1 ym.2 holidays) (normOverrides ovs)
    (pmc.getD tech.max_pms_per_day) keep ym.1 ym.2 mixed hwf
  subst hl
  obtain ⟨hgood, -⟩ := i1 (d, o) hd
  obtain ⟨pre, post, hsplit, hpre, hpost⟩ := hgood plan hplan
  refine ⟨pre, post, hsplit, ?_, ?_⟩
  · intro q hq
    rcases hpre q hq with hid | ⟨it, hwfi, -, mj, p, hji, hj1, hj2, hj3⟩
    · exact Or.inl hid
    · exact Or.inr ⟨mj, p, (List.mem_filter.mp (JobIn_mem hwfi hji)).1, hj1, hj2, hj3⟩
  · intro q hq
    rcases hpost q hq with hid | ⟨it, hwfi, -, mj, p, hji, hj1, hj2, hj3⟩
    · exact Or.inl hid
    · exact Or.inr ⟨mj, p, (List.mem_filter.mp (JobIn_mem hwfi hji)).1, hj1, hj2, hj3⟩

/-- Witness for C1 at a concrete September 2025 run. -/
theorem C1_witness :
    schedule_month havZero [officeW] [techW] jobsFixedJunk "2025-09" "R" "T" none []
      none [] = .ok (projectDays lC1) ∧
    ∃ office tech,
      [officeW].find? (fun o' => o'.region == "R") = some office ∧
      [techW].find? (fun t => t.name == "T") = some tech ∧
      ∃ pre post, planC1 = pre ++ post ∧
        (∀ q ∈ pre, q.job_id = -1 ∨
          ∃ mj p, (mj, p) ∈ jobsFixedJunk ∧ q.job_id = mj.id ∧ q.property = p.name ∧
            q.«end» + backDrive ⟨havZero, office, tech⟩ p ≤ tech.latest_return) ∧
        (∀ q ∈ post, q.job_id = -1 ∨
          ∃ mj p, (mj, p) ∈ jobsFixedJunk ∧ q.job_id = mj.id ∧ q.property = p.name ∧
            q.«end» + backDrive ⟨havZero, office, tech⟩ p ≤ tech.latest_return +
              (if oC1.long_haul_active then LONG_HAUL_OT_BUFFER_MIN else 0)) :=
  C1_latest_return_bound havZero [officeW] [techW] jobsFixedJunk "2025-09" "R" "T"
    none [] none [] lC1 sep1 oC1 planC1 (okOf_eq_some (by decide!)) (by decide!)
    (by decide!)

/-- Claim C2 (amended).  The first half of the claim holds: with a
nonnegative base cap and nonnegative overrides, no recorded day's PM
count exceeds the effective cap (per-day override if present, else the
base cap).  The long-haul 3-PM soft cap, however, is enforced only by
the backhaul loop — which never raises a day's PM count above
`max_pms_allowed` while the policy is active — and not by the anchor
placement, so the original whole-day "never exceeds 3" guarantee fails
(see the counterexample). -/
theorem C2_amended_pm_caps (hav : HavFn) (offices : List Office)
    (techs : List Tech) (jobsAll : List (MonthJob × Prop'))
    (month region tech_name : String) (pmc : Option Int) (holidays : List Date)
    (keep : Option Int) (ovs : List ((Date ⊕ String) × Int))
    (l : List (Date × DayOut)) (d : Date) (o : DayOut)
    (h : scheduleDays hav offices techs jobsAll month region tech_name pmc
      holidays keep ovs = .ok l)
    (hd : (d, o) ∈ l)
    (ht : ∀ t ∈ techs, 0 ≤ t.max_pms_per_day)
    (hpmc : ∀ i : Int, pmc = some i → 0 ≤ i)
    (hovs : ∀ kv ∈ ovs, 0 ≤ kv.2) :
    (∃ tech, techs.find? (fun t => t.name == tech_name) = some tech ∧
      o.pm_count ≤ capFor (normOverrides ovs) (pmc.getD tech.max_pms_per_day) d) ∧
    (∀ (c : Ctx) (e : Date) (cap : Int) (fuel : Nat) (S : DayState),
      S.long_haul_active = true → S.pm_count ≤ S.max_pms_allowed →
      (backhaul c e cap fuel S).pm_count ≤ S.max_pms_allowed) := by
  constructor
  · obtain ⟨office, tech, mixed, ym, hoff, htech, hbb, hym, hl⟩ :=
      scheduleDays_ok hav offices techs jobsAll month region tech_name pmc
        holidays keep ovs l h
    refine ⟨tech, htech, ?_⟩
    have hwf := build_bundles_WF hav _ office mixed hbb
    obtain ⟨i1, -⟩ := scheduleCore_spec ⟨hav, office, tech⟩
      (jobsAll.filter (fun mp => job_assigned_to mp.1 tech_name)) holidays
      (heldOpenOf keep ym.1 ym.2 holidays) (normOverrides ovs)
      (pmc.getD tech.max_pms_per_day) keep ym.1 ym.2 mixed hwf
    subst hl
    obtain ⟨-, hpm⟩ := i1 (d, o) hd
    have hbc : 0 ≤ pmc.getD tech.max_pms_per_day := by
      cases pmc with
      | none =>
        simp only [Option.getD_none]
        exact ht tech (List.mem_of_find?_eq_some htech)
      | some i =>
        simp only [Option.getD_some]
        exact hpmc i rfl
    have hcap := capFor_nonneg (normOverrides ovs) (pmc.getD tech.max_pms_per_day)
      d hbc (normOverrides_nonneg ovs hovs)
    rcases hpm with h0 | hle
    · rw [h0]; exact hcap
    · exact hle
  · intro c' e cap fuel S hact hle
    obtain ⟨-, -, h3⟩ := backhaul_pm c' e cap fuel S
    rcases h3 with hp | hp
    · rw [hp]; exact hle
    · exact hp.2 hact

/-- Witness for C2 at a concrete September 2025 run. -/
theorem C2_witness :
    (∃ tech, [techW].find? (fun t => t.name == "T") = some tech ∧
      oC1.pm_count ≤ capFor (normOverrides [])
        ((none : Option Int).getD tech.max_pms_per_day) sep1) ∧
    (∀ (c : Ctx) (e : Date) (cap : Int) (fuel : Nat) (S : DayState),
      S.long_haul_active = true → S.pm_count ≤ S.max_pms_allowed →
      (backhaul c e cap fuel S).pm_count ≤ S.max_pms_allowed) :=
  C2_amended_pm_caps havZero [officeW] [techW] jobsFixedJunk "2025-09" "R" "T"
    none [] none [] lC1 sep1 oC1 (okOf_eq_some (by decide!)) (by decide!)
    (by decide) (by intro i hi; exact absurd hi (by simp))
    (by intro kv hkv; exact absurd hkv (List.not_mem_nil kv))

/-- Claim C3 (amended).  A stop of a flagged job is constrained to the
last Thursday only through its pool element: a flagged single, or a
bundle whose members are unanimously flagged (the bundle flag is the
conjunction of its members' flags), appears only on the month's last
Thursday; a flagged job bundled with at least one unflagged member
escapes the constraint (see the counterexample). -/
theorem C3_amended_last_thursday (hav : HavFn) (offices : List Office)
    (techs : List Tech) (jobsAll : List (MonthJob × Prop'))
    (month region tech_name : String) (pmc : Option Int) (holidays : List Date)
    (keep : Option Int) (ovs : List ((Date ⊕ String) × Int))
    (l : List (Date × DayOut)) (d : Date) (o : DayOut) (plan : List Placed)
    (pl : Placed)
    (h : scheduleDays hav offices techs jobsAll month region tech_name pmc
      holidays keep ovs = .ok l)
    (hd : (d, o) ∈ l) (hplan : o.entry = some plan) (hpl : pl ∈ plan)
    (hreal : pl.job_id ≠ -1) :
    ∃ it mj p,
      ItemWF (jobsAll.filter (fun mp => job_assigned_to mp.1 tech_name)) it ∧
      JobIn mj p it ∧ pl.job_id = mj.id ∧
      (mj.must_be_last_thursday ≠ 0 →
        is_last_thursday d = true ∨
        ∃ b, it = Item.bundle b ∧
          ∃ mp ∈ b.members, mp.1.must_be_last_thursday ≠ 1) := by
  obtain ⟨it, hwfi, helig, mj, p, hji, hj1⟩ := schedule_stop_provenance hav offices
    techs jobsAll month region tech_name pmc holidays keep ovs l d o plan pl h hd
    hplan hpl hreal
  refine ⟨it, mj, p, hwfi, hji, hj1, ?_⟩
  intro hmust
  cases it with
  | single mj' p' =>
    have hji' : mj = mj' ∧ p = p' := hji
    left
    refine eligibleDay_must helig ?_
    simp only [itemMustLT]
    rw [← hji'.1]
    exact hmust
  | bundle b =>
    by_cases hall : ∀ mp ∈ b.members, mp.1.must_be_last_thursday = 1
    · left
      refine eligibleDay_must helig ?_
      have hbm := hwfi.2.2.2.1 hall
      simp only [itemMustLT]
      rw [hbm]
      exact one_ne_zero
    · right
      push_neg at hall
      obtain ⟨mp, hmp, hne⟩ := hall
      exact ⟨b, rfl, mp, hmp, hne⟩

/-- Witness for C3 at a concrete September 2025 run. -/
theorem C3_witness :
    ∃ it mj p,
      ItemWF (jobsMixedFlag.filter (fun mp => job_assigned_to mp.1 "T")) it ∧
      JobIn mj p it ∧ plC3.job_id = mj.id ∧
      (mj.must_be_last_thursday ≠ 0 →
        is_last_thursday sep1 = true ∨
        ∃ b, it = Item.bundle b ∧
          ∃ mp ∈ b.members, mp.1.must_be_last_thursday ≠ 1) :=
  C3_amended_last_thursday havZero [officeW] [techW] jobsMixedFlag "2025-09" "R" "T"
    none [] none [] lC3 sep1 oC3 planC3 plC3 (okOf_eq_some (by decide!)) (by decide!)
    (by decide!) (by decide!) (by decide!)

/-- Claim C4 (amended).  On a schedulable day whose eligibility filter
leaves the pool empty, the source `continue`s without recording
anything, so the date is absent from the returned mapping — no
synthetic "no eligible job" note is produced for it (the note appears
only when a non-empty pool places nothing). -/
theorem C4_amended_empty_pool_day_absent (hav : HavFn) (offices : List Office)
    (techs : List Tech) (jobsAll : List (MonthJob × Prop'))
    (month region tech_name : String) (pmc : Option Int) (holidays : List Date)
    (keep : Option Int) (ovs : List ((Date ⊕ String) × Int))
    (l : List (Date × DayOut)) (d : Date) (o : DayOut)
    (h : scheduleDays hav offices techs jobsAll month region tech_name pmc
      holidays keep ovs = .ok l)
    (hd : (d, o) ∈ l) (hentry : o.entry = none) :
    (∀ plan, (d, plan) ∉ projectDays l) ∧
    (∀ (c : Ctx) (cap : Int) (rem : List Item),
      (rem.filter (eligibleDay d)).isEmpty = true →
      (runDay c d cap rem).entry = none) := by
  constructor
  · obtain ⟨office, tech, mixed, ym, hoff, htech, hbb, hym, hl⟩ :=
      scheduleDays_ok hav offices techs jobsAll month region tech_name pmc
        holidays keep ovs l h
    have hwf := build_bundles_WF hav _ office mixed hbb
    obtain ⟨-, hnd⟩ := scheduleCore_spec ⟨hav, office, tech⟩
      (jobsAll.filter (fun mp => job_assigned_to mp.1 tech_name)) holidays
      (heldOpenOf keep ym.1 ym.2 holidays) (normOverrides ovs)
      (pmc.getD tech.max_pms_per_day) keep ym.1 ym.2 mixed hwf
    subst hl
    intro plan hmem
    obtain ⟨a, ha, hmap⟩ := List.mem_filterMap.mp hmem
    obtain ⟨v, hv, hpair⟩ := Option.map_eq_some'.mp hmap
    obtain ⟨h1, h2⟩ := (Prod.mk.injEq _ _ _ _).mp hpair
    have hal : (d, a.2) ∈ scheduleCore ⟨hav, office, tech⟩ holidays
        (heldOpenOf keep ym.1 ym.2 holidays) (normOverrides ovs)
        (pmc.getD tech.max_pms_per_day) keep ym.1 ym.2 mixed := by
      rw [← h1]
      exact ha
    have ho := key_unique hnd hd hal
    rw [← ho] at hv
    rw [hentry] at hv
    exact Option.noConfusion hv
  · intro c' cap rem hemp
    simp [runDay, hemp]

/-- Witness for C4 at a concrete September 2025 run (the fixture's only
job is consumed on September 1st, so September 8th's pool is empty and
the date is absent from the mapping). -/
theorem C4_witness :
    (∀ plan, (sep8, plan) ∉ projectDays lC1) ∧
    (∀ (c : Ctx) (cap : Int) (rem : List Item),
      (rem.filter (eligibleDay sep8)).isEmpty = true →
      (runDay c sep8 cap rem).entry = none) :=
  C4_amended_empty_pool_day_absent havZero [officeW] [techW] jobsFixedJunk
    "2025-09" "R" "T" none [] none [] lC1 sep8 ⟨none, [], 0, false⟩
    (okOf_eq_some (by decide!)) (by decide!) rfl

/-- Claim C5 (amended).  A fixed date constrains placement only when
(after the bundler's trimming convention) it parses as `YYYY-MM-DD`:
every non-synthetic stop comes from a job that, if its fixed-date
string is whitespace-normal and parseable, is placed exactly on the
parsed date.  Non-blank unparseable fixed dates impose no constraint
(see the counterexample). -/
theorem C5_amended_fixed_date (hav : HavFn) (offices : List Office)
    (techs : List Tech) (jobsAll : List (MonthJob × Prop'))
    (month region tech_name : String) (pmc : Option Int) (holidays : List Date)
    (keep : Option Int) (ovs : List ((Date ⊕ String) × Int))
    (l : List (Date × DayOut)) (d : Date) (o : DayOut) (plan : List Placed)
    (pl : Placed)
    (h : scheduleDays hav offices techs jobsAll month region tech_name pmc
      holidays keep ovs = .ok l)
    (hd : (d, o) ∈ l) (hplan : o.entry = some plan) (hpl : pl ∈ plan)
    (hreal : pl.job_id ≠ -1) :
    ∃ it mj p,
      ItemWF (jobsAll.filter (fun mp => job_assigned_to mp.1 tech_name)) it ∧
      JobIn mj p it ∧ pl.job_id = mj.id ∧
      ∀ (s : String) (fd : Date), mj.fixed_date = some s → pyTrim s = s →
        parseYMD s = some fd → d = fd := by
  obtain ⟨it, hwfi, helig, mj, p, hji, hj1⟩ := schedule_stop_provenance hav offices
    techs jobsAll month region tech_name pmc holidays keep ovs l d o plan pl h hd
    hplan hpl hreal
  refine ⟨it, mj, p, hwfi, hji, hj1, ?_⟩
  intro s fd hs htrim hp
  cases it with
  | single mj' p' =>
    have hji' : mj = mj' ∧ p = p' := hji
    refine eligibleDay_fixed_single helig ?_ hp
    rw [← hji'.1]
    exact hs
  | bundle b =>
    exact eligibleDay_fixed_bundle hwfi hji helig hs htrim hp

/-- Witness for C5 at a concrete September 2025 run with a parseable
fixed date. -/
theorem C5_witness :
    ∃ it mj p,
      ItemWF (jobsFixedOk.filter (fun mp => job_assigned_to mp.1 "T")) it ∧
      JobIn mj p it ∧ plC5.job_id = mj.id ∧
      ∀ (s : String) (fd : Date), mj.fixed_date = some s → pyTrim s = s →
        parseYMD s = some fd → sep1 = fd :=
  C5_amended_fixed_date havZero [officeW] [techW] jobsFixedOk "2025-09" "R" "T"
    none [] none [] lC5 sep1 oC5 planC5 plC5 (okOf_eq_some (by decide!)) (by decide!)
    (by decide!) (by decide!) (by decide!)

end TDM
